import Mathlib

/-!
# Verification of the `toml_sort` formatting engine

A shallow embedding of the document-formatting core of the `toml_sort` crate
(`src/lib.rs`): the tree-with-trivia data model of `toml_edit` as consumed by the
crate, and the four formatting routines `format_table`, `format_inline_table`,
`format_value` and `format_array` of `ProcessedConfig`, together with proofs of
the behavioural properties claimed in the specification.

Rust strings are modelled as lists of characters, string maps as association
lists (with key uniqueness — an invariant of the `toml_edit` map types — as an
explicit hypothesis where behaviour depends on it), `Result` as `Option`, and
`Vec::sort_by` (a stable sort) as stable insertion sort.
-/

namespace TomlSort

/-- Rust strings, modelled as lists of characters. -/
abbrev Str := List Char

/-! ## String helpers modelling Rust `str` methods -/

/-- Rust `str::trim` (whitespace stripped from both ends). -/
def rustTrim (s : Str) : Str :=
  ((s.dropWhile Char.isWhitespace).reverse.dropWhile Char.isWhitespace).reverse

/-- Rust `trim_end_matches('\n')`. -/
def trimEndNewlines (s : Str) : Str := (s.reverse.dropWhile (· = '\n')).reverse

/-- Character class used by `trim_matches(&[' ', '\t', '\n'][..])`. -/
def isSTN (c : Char) : Bool := c = ' ' || c = '\t' || c = '\n'

/-- Rust `trim_matches(&[' ', '\t', '\n'][..])`. -/
def trimSTN (s : Str) : Str :=
  ((s.dropWhile isSTN).reverse.dropWhile isSTN).reverse

/-- Rust `str::starts_with`. -/
def startsWith (s p : Str) : Bool := p.isPrefixOf s

/-- `display.find(&['\\', '"'][..]).is_some()`: does the string contain `\` or `"`? -/
def hasBackslashOrDquote (s : Str) : Bool := s.any fun c => c = '\\' || c = '"'

/-- `display.strip_prefix("'")`, keeping the string unchanged when it does not apply. -/
def stripLeadQuote (s : Str) : Str :=
  match s with
  | '\'' :: rest => rest
  | s => s

/-- `display.strip_suffix("'")`, keeping the string unchanged when it does not apply. -/
def stripTrailQuote (s : Str) : Str :=
  match s.reverse with
  | '\'' :: rest => rest.reverse
  | _ => s

/-! ## Comparators and stable sorting -/

/-- `usize::cmp`. -/
def cmpNat (a b : Nat) : Ordering := if a < b then .lt else if b < a then .gt else .eq

/-- Byte/codepoint comparison of characters (UTF-8 byte order equals codepoint order). -/
def cmpChar (a b : Char) : Ordering := cmpNat a.toNat b.toNat

/-- Rust `str::cmp`: lexicographic comparison. -/
def cmpStr : Str → Str → Ordering
  | [], [] => .eq
  | [], _ :: _ => .lt
  | _ :: _, [] => .gt
  | a :: s, b :: t =>
    match cmpChar a b with
    | .eq => cmpStr s t
    | o => o

/-- The non-strict relation of a comparator: a stable sort keeps `a` before `b`
whenever `cmp a b ≠ Greater`. -/
def cmpLe (cmp : α → α → Ordering) (a b : α) : Prop := cmp a b ≠ .gt

instance (cmp : α → α → Ordering) : DecidableRel (cmpLe cmp) := fun a b =>
  inferInstanceAs (Decidable (cmp a b ≠ .gt))

/-- `Vec::sort_by` is a stable sort; modelled by stable insertion sort
(for the lawful comparators used here the result of any stable sort is unique). -/
def sortBy (cmp : α → α → Ordering) (l : List α) : List α := l.insertionSort (cmpLe cmp)

/-! ## The tree-with-trivia data model of `toml_edit` -/

/-- `toml_edit::Decor`: optional prefix and suffix trivia attached to a node. -/
structure Decor where
  pre : Option Str
  suf : Option Str
deriving Repr, DecidableEq

/-- `Decor::default()`. -/
def Decor.default : Decor := ⟨none, none⟩

/-- The `Entry` struct of lib.rs (a key, a value and the key's decor); also used to
model one slot of a `Table` / `InlineTable` association. -/
structure Entry (α : Type) where
  key : Str
  value : α
  decor : Decor
deriving Repr, DecidableEq

/-- `toml_edit::Value`: a string scalar (content and TOML text representation),
any other scalar (integer, float, boolean, datetime — only its text matters to the
formatter), an array, or an inline table. -/
inductive TValue : Type where
  | strV (content : Str) (rep : Str) (decor : Decor)
  | other (rep : Str) (decor : Decor)
  | arr (values : List TValue) (trailing : Str) (trailingComma : Bool) (decor : Decor)
  | inlineTab (entries : List (Entry TValue)) (decor : Decor)
deriving Repr

mutual
/-- `toml_edit::Item`. -/
inductive Item : Type where
  | none
  | value (v : TValue)
  | table (t : TTable)
  | arrayOfTables (tag : Nat)
deriving Repr

/-- `toml_edit::Table`: entries in order, the table's own decor, and the
`implicit` flag. -/
inductive TTable : Type where
  | mk (entries : List (Entry Item)) (decor : Decor) (implicit : Bool)
deriving Repr
end

def TValue.decor : TValue → Decor
  | .strV _ _ d => d
  | .other _ d => d
  | .arr _ _ _ d => d
  | .inlineTab _ d => d

def TValue.setDecor : TValue → Decor → TValue
  | .strV c r _, d => .strV c r d
  | .other r _, d => .other r d
  | .arr vs t tc _, d => .arr vs t tc d
  | .inlineTab es _, d => .inlineTab es d

/-- `Value::decorated(prefix, suffix)`. -/
def TValue.decorated (v : TValue) (p s : Str) : TValue := v.setDecor ⟨some p, some s⟩

def TTable.entries : TTable → List (Entry Item)
  | .mk es _ _ => es

def TTable.decor : TTable → Decor
  | .mk _ d _ => d

def TTable.implicit : TTable → Bool
  | .mk _ _ i => i

/-! ## Configuration -/

/-- `ProcessedConfig` (lib.rs lines 81-96); each `BTreeMap<String, usize>` is
modelled by its lookup function. -/
structure ProcessedConfig where
  keys : Str → Option Nat
  inlineKeys : Str → Option Nat
  sortStringArrays : Bool

/-- The rank map built by `From<Config> for ProcessedConfig` (lib.rs lines 98-116):
each name maps to its position in the list, a later occurrence overwriting an
earlier one. -/
def ranksOfList (names : List Str) (k : Str) : Option Nat :=
  names.enum.foldl (fun acc p => if p.2 == k then some p.1 else acc) none

/-! ## The sort closures -/

/-- The sort closure of `format_table` (lib.rs lines 179-189) and of
`format_inline_table` (lib.rs lines 283-293), parametrised by the rank lookup. -/
def entryCmp (rank : Str → Option Nat) (x y : Entry α) : Ordering :=
  match rank x.key, rank y.key with
  | some _, none => .lt
  | none, some _ => .gt
  | some i, some j => cmpNat i j
  | none, none => cmpStr x.key y.key

/-- The same comparator at the level of bare keys. -/
def keyCmp (rank : Str → Option Nat) (x y : Str) : Ordering :=
  match rank x, rank y with
  | some _, none => .lt
  | none, some _ => .gt
  | some i, some j => cmpNat i j
  | none, none => cmpStr x y

/-- The sort closure of `format_array` (lib.rs lines 388-393): string contents
ascending, strings before non-strings, non-strings mutually equal. -/
def arrayElemCmp : TValue → TValue → Ordering
  | .strV x _ _, .strV y _ _ => cmpStr x y
  | .strV _ _ _, _ => .lt
  | _, .strV _ _ _ => .gt
  | _, _ => .eq

/-! ## Scalar formatting -/

/-- The TOML text of a value stripped of decor: `v.clone().decorated("", "").to_string()`. -/
def TValue.display : TValue → Str
  | .strV _ r _ => r
  | .other r _ => r
  | .arr _ _ _ _ => []
  | .inlineTab _ _ => []

/-- The condition of lib.rs lines 354-357 under which a single-quoted scalar is
rewritten to double quotes. -/
def quoteCond (display : Str) : Bool :=
  startsWith display ['\''] && !startsWith display ['\'', '\''] && !hasBackslashOrDquote display

/-- The scalar branch of `ProcessedConfig::format_value` (lib.rs lines 329-375).
`display.into()` produces a string value whose default TOML text is the content
wrapped in double quotes (no escaping is needed: the guard excludes `\` and `"`). -/
def formatScalar (v : TValue) (last : Bool) : TValue :=
  let pfx := (v.decor.pre.map rustTrim).getD []
  let pfx := if pfx.isEmpty then pfx else ' ' :: pfx
  let sfx := (v.decor.suf.map rustTrim).getD []
  let sfx := if sfx.isEmpty then sfx else ' ' :: sfx
  let display := v.display
  let v1 :=
    if quoteCond display then
      let d := stripTrailQuote (stripLeadQuote display)
      TValue.strV d ('"' :: (d ++ ['"'])) Decor.default
    else v
  if last then v1.decorated (pfx ++ [' ']) (sfx ++ [' '])
  else v1.decorated (pfx ++ [' ']) sfx

/-! ## Inline-table pieces that do not recurse -/

/-- `table.key_decor(key)` on an inline table. -/
def inlineKeyDecor (es : List (Entry TValue)) (k : Str) : Option Decor :=
  (es.find? fun e => e.key == k).map (·.decor)

/-- The `table.key_decor(key).unwrap()` lookups of the scan loop of
`format_inline_table` (lib.rs line 296), one per entry of `rest`, against the
whole table `tbl`: formatting fails if any is absent. -/
def checkDecorsGo (tbl : List (Entry TValue)) : List (Entry TValue) → Option (List Decor)
  | [] => pure []
  | e :: rest => do
    let d ← inlineKeyDecor tbl e.key
    let ds ← checkDecorsGo tbl rest
    pure (d :: ds)

/-- All the `key_decor(key).unwrap()` calls of the scan loop of
`format_inline_table`, iterating the table against itself. -/
def checkInlineDecors (es : List (Entry TValue)) : Option (List Decor) :=
  checkDecorsGo es es

/-- The rest of that scan loop (lib.rs lines 298-308): each key decor is
overwritten with exactly one space on each side, the value is kept. -/
def scanInlineEntries (es : List (Entry TValue)) : List (Entry TValue) :=
  es.map fun e => { e with decor := ⟨some [' '], some [' ']⟩ }

/-- `formated_table.insert(key, value)` followed by
`*formated_table.key_decor_mut(key).unwrap() = decor`: replace the first entry
with this key, or append. -/
def insertEntry (es : List (Entry α)) (e : Entry α) : List (Entry α) :=
  if es.any fun x => x.key == e.key then
    es.map fun x => if x.key == e.key then { x with value := e.value, decor := e.decor } else x
  else es ++ [e]

/-- Total size of the values carried by a list of entries (termination measure only). -/
noncomputable def valsSize (l : List (Entry TValue)) : Nat :=
  (l.map fun e => sizeOf e.value).sum

theorem valsSize_cons (e : Entry TValue) (l : List (Entry TValue)) :
    valsSize (e :: l) = sizeOf e.value + valsSize l := by
  simp [valsSize]

theorem perm_sizeOf_eq [SizeOf α] {l₁ l₂ : List α} (h : List.Perm l₁ l₂) :
    sizeOf l₁ = sizeOf l₂ := by
  induction h with
  | nil => rfl
  | cons x _ ih => simp [ih]
  | swap x y l => simp; omega
  | trans _ _ ih₁ ih₂ => omega

theorem sortBy_perm (cmp : α → α → Ordering) (l : List α) : List.Perm (sortBy cmp l) l :=
  List.perm_insertionSort _ l

theorem sortBy_sizeOf_eq [SizeOf α] (cmp : α → α → Ordering) (l : List α) :
    sizeOf (sortBy cmp l) = sizeOf l :=
  perm_sizeOf_eq (sortBy_perm cmp l)

theorem valsSize_perm {l₁ l₂ : List (Entry TValue)} (h : List.Perm l₁ l₂) :
    valsSize l₁ = valsSize l₂ :=
  List.Perm.sum_eq (List.Perm.map _ h)

theorem valsSize_scan (es : List (Entry TValue)) :
    valsSize (scanInlineEntries es) = valsSize es := by
  induction es with
  | nil => rfl
  | cons e rest ih => simpa [valsSize, scanInlineEntries] using congrArg (sizeOf e.value + ·) ih

theorem valsSize_lt_sizeOf (es : List (Entry TValue)) : valsSize es < sizeOf es := by
  induction es with
  | nil => simp [valsSize]
  | cons e rest ih =>
    rw [valsSize_cons]
    cases e
    simp only [List.cons.sizeOf_spec, Entry.mk.sizeOf_spec, Entry.value]
    omega

/-! ## `format_value`, `format_array`, `format_inline_table` -/

mutual

/-- `ProcessedConfig::format_value` (lib.rs lines 325-377). -/
def format_value (c : ProcessedConfig) (v : TValue) (last : Bool) : Option TValue :=
  match v with
  | .arr values trailing _ _ => format_array c values trailing last
  | .inlineTab entries _ => format_inline_table c entries last
  | v => pure (formatScalar v last)
termination_by 3 * sizeOf v
decreasing_by
  · simp_wf; omega
  · simp_wf
    have h := valsSize_lt_sizeOf entries
    omega

/-- `ProcessedConfig::format_array` (lib.rs lines 384-447). The input array's
elements and trailing string are consumed; its trailing-comma flag and decor are
never read by the source. -/
def format_array (c : ProcessedConfig) (values : List TValue) (trailing : Str) (last : Bool) :
    Option TValue := do
  let sorted := if c.sortStringArrays then sortBy arrayElemCmp values else values
  if startsWith trailing ['\n'] then
    let newVals ← formatMulti c sorted
    pure (.arr newVals trailing true ⟨some [' '], some (if last then [' '] else [])⟩)
  else
    let newVals ← formatInline c sorted.length 0 sorted
    pure (.arr newVals [] false ⟨some [' '], some (if last then [' '] else [])⟩)
termination_by 3 * sizeOf values + 2
decreasing_by
  all_goals
    simp_wf
    have h : sizeOf (if c.sortStringArrays = true then sortBy arrayElemCmp values else values)
        = sizeOf values := by
      split
      · exact sortBy_sizeOf_eq arrayElemCmp values
      · rfl
    omega

/-- The multiline-array element loop of `format_array` (lib.rs lines 403-429):
recompute each element's prefix as newline+tab (wrapping a trimmed pre-existing
comment), trim its suffix, format it with `last = false`, then override its decor. -/
def formatMulti (c : ProcessedConfig) (l : List TValue) : Option (List TValue) :=
  match l with
  | [] => pure []
  | v :: rest => do
    let pfxT := trimSTN (v.decor.pre.getD [])
    let pfx := if !pfxT.isEmpty then '\n' :: '\t' :: (pfxT ++ ['\n', '\t']) else ['\n', '\t']
    let sfx := trimSTN (v.decor.suf.getD [])
    let fv ← format_value c v false
    let rest' ← formatMulti c rest
    pure (fv.decorated pfx sfx :: rest')
termination_by 3 * sizeOf l + 1
decreasing_by
  all_goals simp_wf <;> omega

/-- The inline-array element loop of `format_array` (lib.rs lines 431-438):
format each element, `last` only for the final one. -/
def formatInline (c : ProcessedConfig) (len i : Nat) (l : List TValue) : Option (List TValue) :=
  match l with
  | [] => pure []
  | v :: rest => do
    let fv ← format_value c v (i + 1 == len)
    let rest' ← formatInline c len (i + 1) rest
    pure (fv :: rest')
termination_by 3 * sizeOf l + 1
decreasing_by
  all_goals simp_wf <;> omega

/-- `ProcessedConfig::format_inline_table` (lib.rs lines 275-322): scan entries
(decor lookup and normalization), sort with the inline priority index, format the
values (`last` only for the final one), insert into a fresh inline table. -/
def format_inline_table (c : ProcessedConfig) (entries : List (Entry TValue)) (last : Bool) :
    Option TValue := do
  let _ ← checkInlineDecors entries
  let sorted := sortBy (entryCmp c.inlineKeys) (scanInlineEntries entries)
  let formatted ← formatEntries c sorted.length 0 sorted
  pure (.inlineTab (formatted.foldl insertEntry [])
    ⟨none, if last then some [' '] else none⟩)
termination_by 3 * valsSize entries + 2
decreasing_by
  simp_wf
  have h : valsSize (sortBy (entryCmp c.inlineKeys) (scanInlineEntries entries))
      = valsSize entries := by
    rw [valsSize_perm (sortBy_perm (entryCmp c.inlineKeys) (scanInlineEntries entries))]
    exact valsSize_scan entries
  omega

/-- The value-formatting loop of `format_inline_table` (lib.rs lines 313-319). -/
def formatEntries (c : ProcessedConfig) (len i : Nat) (l : List (Entry TValue)) :
    Option (List (Entry TValue)) :=
  match l with
  | [] => pure []
  | e :: rest => do
    let fv ← format_value c e.value (i + 1 == len)
    let rest' ← formatEntries c len (i + 1) rest
    pure ({ e with value := fv } :: rest')
termination_by 3 * valsSize l + 1
decreasing_by
  all_goals
    rw [valsSize_cons]
    have h : 0 < sizeOf e.value := by cases e.value <;> simp
    omega

end

/-! ## `format_table` -/

/-- `table.key_decor(key)` on a table. -/
def keyDecorLookup (es : List (Entry Item)) (k : Str) : Option Decor :=
  (es.find? fun e => e.key == k).map (·.decor)

/-- One flush loop of `format_table` (lib.rs lines 213-223 and 257-267): walk the
sorted section, give the first entry the section prefix (when there is one), and
insert every entry into the output table. -/
def emitSorted (secPre : Option Str) (l : List (Entry Item)) (i : Nat)
    (out : List (Entry Item)) : List (Entry Item) :=
  match l with
  | [] => out
  | e :: rest =>
    let e1 :=
      if i = 0 then
        match secPre with
        | some p => { e with decor := { e.decor with pre := some p } }
        | none => e
      else e
    emitSorted secPre rest (i + 1) (insertEntry out e1)

/-- Sort a finished section and insert it into the output table
(lib.rs lines 210-223 and 254-267). -/
def flushSection (rank : Str → Option Nat) (secDecor : Decor) (sec : List (Entry Item))
    (out : List (Entry Item)) : List (Entry Item) :=
  emitSorted secDecor.pre (sortBy (entryCmp rank) sec) 0 out

/-- Total size of the items in a list of entries (termination measure only). -/
noncomputable def itemsSize (l : List (Entry Item)) : Nat :=
  (l.map fun e => sizeOf e.value).sum

theorem itemsSize_cons (e : Entry Item) (l : List (Entry Item)) :
    itemsSize (e :: l) = sizeOf e.value + itemsSize l := by
  simp [itemsSize]

theorem itemsSize_lt_sizeOf (es : List (Entry Item)) : itemsSize es < sizeOf es := by
  induction es with
  | nil => simp [itemsSize]
  | cons e rest ih =>
    rw [itemsSize_cons]
    cases e
    simp only [List.cons.sizeOf_spec, Entry.mk.sizeOf_spec, Entry.value]
    omega

mutual

/-- `ProcessedConfig::format_table` (lib.rs lines 168-270): a fresh table with
the `implicit` flag set and the input's outer decor, filled by the entry scan. -/
def format_table (c : ProcessedConfig) (t : TTable) : Option TTable := do
  let outDecor : Decor := ⟨some (t.decor.pre.getD []), some (t.decor.suf.getD [])⟩
  let outEntries ← scanEntries c t.entries 0 Decor.default [] [] t.entries
  pure (.mk outEntries outDecor true)
termination_by 3 * sizeOf t
decreasing_by
  simp_wf
  cases t with
  | mk es d i =>
    have h := itemsSize_lt_sizeOf es
    simp [TTable.entries]
    omega

/-- The entry loop of `format_table` (lib.rs lines 191-252), carrying the loop
state: entry index `i`, current section decor, current section, output entries.
On the first entry a non-empty key prefix is detached into the section decor;
on a later entry a key prefix starting with a newline flushes the section and
starts a new one; every key suffix is stripped of trailing newlines; every item
is formatted and pushed onto the current section.  At the end of the entries the
remaining section is flushed (lib.rs lines 254-267). -/
def scanEntries (c : ProcessedConfig) (all : List (Entry Item)) (i : Nat) (secDecor : Decor)
    (sec : List (Entry Item)) (out : List (Entry Item)) (rest : List (Entry Item)) :
    Option (List (Entry Item)) :=
  match rest with
  | [] => pure (flushSection c.keys secDecor sec out)
  | e :: rest => do
    let kd ← keyDecorLookup all e.key
    let st :=
      if i = 0 then
        match kd.pre with
        | some p =>
          if !p.isEmpty then
            ({ secDecor with pre := some p }, sec, out, { kd with pre := some ([] : Str) })
          else (secDecor, sec, out, kd)
        | none => (secDecor, sec, out, kd)
      else
        match kd.pre with
        | some p =>
          if startsWith p ['\n'] then
            ((⟨some p, none⟩ : Decor), ([] : List (Entry Item)),
              flushSection c.keys secDecor sec out, { kd with pre := some ([] : Str) })
          else (secDecor, sec, out, kd)
        | none => (secDecor, sec, out, kd)
    let kd2 :=
      match st.2.2.2.suf with
      | some s => { st.2.2.2 with suf := some (trimEndNewlines s) }
      | none => st.2.2.2
    let newItem ← formatItem c e.value
    scanEntries c all (i + 1) st.1 (st.2.1 ++ [{ key := e.key, value := newItem, decor := kd2 }])
      st.2.2.1 rest
termination_by 3 * itemsSize rest + 2
decreasing_by
  all_goals
    rw [itemsSize_cons]
    have h : 0 < sizeOf e.value := by cases e.value <;> simp
    omega

/-- The per-item formatting step (lib.rs lines 238-245). -/
def formatItem (c : ProcessedConfig) (it : Item) : Option Item :=
  match it with
  | .none => pure .none
  | .value v => do pure (.value (← format_value c v false))
  | .table t => do pure (.table (← format_table c t))
  | .arrayOfTables tag => pure (.arrayOfTables tag)
termination_by 3 * sizeOf it + 1
decreasing_by
  simp_wf; omega

end

end TomlSort

namespace TomlSort

/-! ## Lawfulness of the comparators -/

/-- A comparator answers symmetrically in both argument orders. -/
def OrientedCmp (cmp : α → α → Ordering) : Prop := ∀ a b, cmp b a = (cmp a b).swap

/-- The non-strict relation of the comparator is transitive. -/
def TransCmpLe (cmp : α → α → Ordering) : Prop :=
  ∀ a b c, cmpLe cmp a b → cmpLe cmp b c → cmpLe cmp a c

theorem cmpNat_oriented : OrientedCmp cmpNat := by
  intro a b
  simp only [cmpNat]
  split_ifs <;> simp [Ordering.swap] <;> omega

theorem cmpNat_le_iff (a b : Nat) : cmpNat a b ≠ .gt ↔ a ≤ b := by
  simp only [cmpNat]
  split_ifs <;> simp <;> omega

theorem cmpChar_oriented : OrientedCmp cmpChar := fun a b => cmpNat_oriented _ _

theorem cmpChar_le_iff (a b : Char) : cmpChar a b ≠ .gt ↔ a.toNat ≤ b.toNat :=
  cmpNat_le_iff _ _

theorem cmpChar_eq_iff (a b : Char) : cmpChar a b = .eq ↔ a.toNat = b.toNat := by
  simp only [cmpChar, cmpNat]
  split_ifs <;> simp <;> omega

theorem cmpChar_lt_iff (a b : Char) : cmpChar a b = .lt ↔ a.toNat < b.toNat := by
  simp only [cmpChar, cmpNat]
  split_ifs <;> simp <;> omega

theorem cmpChar_gt_iff (a b : Char) : cmpChar a b = .gt ↔ b.toNat < a.toNat := by
  simp only [cmpChar, cmpNat]
  split_ifs <;> simp <;> omega

theorem cmpStr_oriented : OrientedCmp cmpStr := by
  intro a b
  induction a generalizing b with
  | nil => cases b <;> rfl
  | cons x s ih =>
    cases b with
    | nil => rfl
    | cons y t =>
      simp only [cmpStr]
      rcases hc : cmpChar x y with _ | _ | _
      · rw [(cmpChar_gt_iff y x).mpr ((cmpChar_lt_iff x y).mp hc)]; rfl
      · rw [(cmpChar_eq_iff y x).mpr ((cmpChar_eq_iff x y).mp hc).symm]
        exact ih t
      · rw [(cmpChar_lt_iff y x).mpr ((cmpChar_gt_iff x y).mp hc)]; rfl

theorem cmpStr_trans : TransCmpLe cmpStr := by
  intro a
  induction a with
  | nil => intro b c _ _; cases c <;> simp [cmpLe, cmpStr]
  | cons x s ih =>
    intro b c hab hbc
    cases b with
    | nil => simp [cmpLe, cmpStr] at hab
    | cons y t =>
      cases c with
      | nil => simp [cmpLe, cmpStr] at hbc
      | cons z u =>
        simp only [cmpLe, cmpStr] at hab hbc ⊢
        rcases hxy : cmpChar x y with _ | _ | _ <;> rw [hxy] at hab <;>
          rcases hyz : cmpChar y z with _ | _ | _ <;> rw [hyz] at hbc
        · rw [(cmpChar_lt_iff x z).mpr
            (Nat.lt_trans ((cmpChar_lt_iff x y).mp hxy) ((cmpChar_lt_iff y z).mp hyz))]
          simp
        · have h1 := (cmpChar_lt_iff x y).mp hxy
          have h2 := (cmpChar_eq_iff y z).mp hyz
          rw [(cmpChar_lt_iff x z).mpr (by omega)]
          simp
        · exact absurd rfl hbc
        · have h1 := (cmpChar_eq_iff x y).mp hxy
          have h2 := (cmpChar_lt_iff y z).mp hyz
          rw [(cmpChar_lt_iff x z).mpr (by omega)]
          simp
        · have h1 := (cmpChar_eq_iff x y).mp hxy
          have h2 := (cmpChar_eq_iff y z).mp hyz
          rw [(cmpChar_eq_iff x z).mpr (by omega)]
          exact ih t u hab hbc
        · exact absurd rfl hbc
        · exact absurd rfl hab
        · exact absurd rfl hab
        · exact absurd rfl hab

theorem entryCmp_eq_keyCmp (rank : Str → Option Nat) (x y : Entry α) :
    entryCmp rank x y = keyCmp rank x.key y.key := rfl

theorem keyCmp_oriented (rank : Str → Option Nat) : OrientedCmp (keyCmp rank) := by
  intro a b
  simp only [keyCmp]
  cases rank a <;> cases rank b
  · exact cmpStr_oriented a b
  · rfl
  · rfl
  · exact cmpNat_oriented _ _

theorem keyCmp_trans (rank : Str → Option Nat) : TransCmpLe (keyCmp rank) := by
  intro a b c hab hbc
  simp only [cmpLe, keyCmp] at hab hbc ⊢
  cases ha : rank a <;> cases hb : rank b <;> cases hc : rank c <;>
    rw [ha, hb] at hab <;> rw [hb, hc] at hbc <;> try simp at hab hbc ⊢
  · exact cmpStr_trans a b c hab hbc
  · have h1 := (cmpNat_le_iff _ _).mp hab
    have h2 := (cmpNat_le_iff _ _).mp hbc
    exact (cmpNat_le_iff _ _).mpr (by omega)

theorem entryCmp_oriented (rank : Str → Option Nat) :
    OrientedCmp (fun x y : Entry α => entryCmp rank x y) := fun x y =>
  keyCmp_oriented rank x.key y.key

theorem entryCmp_trans (rank : Str → Option Nat) :
    TransCmpLe (fun x y : Entry α => entryCmp rank x y) := fun x y z =>
  keyCmp_trans rank x.key y.key z.key

/-- The sort key a value presents to `arrayElemCmp`: its content when it is a
string, nothing otherwise. -/
def arrKey : TValue → Option Str
  | .strV s _ _ => some s
  | _ => none

/-- `arrayElemCmp` at the level of sort keys. -/
def arrKeyCmp : Option Str → Option Str → Ordering
  | some x, some y => cmpStr x y
  | some _, none => .lt
  | none, some _ => .gt
  | none, none => .eq

theorem arrayElemCmp_eq_arrKeyCmp (x y : TValue) :
    arrayElemCmp x y = arrKeyCmp (arrKey x) (arrKey y) := by
  cases x <;> cases y <;> rfl

theorem arrKeyCmp_oriented : OrientedCmp arrKeyCmp := by
  intro a b
  cases a <;> cases b
  · rfl
  · rfl
  · rfl
  · exact cmpStr_oriented _ _

theorem arrKeyCmp_trans : TransCmpLe arrKeyCmp := by
  intro a b c hab hbc
  cases a <;> cases b <;> cases c <;> simp [cmpLe, arrKeyCmp] at hab hbc ⊢
  exact cmpStr_trans _ _ _ hab hbc

theorem arrayElemCmp_oriented : OrientedCmp arrayElemCmp := by
  intro a b
  rw [arrayElemCmp_eq_arrKeyCmp, arrayElemCmp_eq_arrKeyCmp]
  exact arrKeyCmp_oriented _ _

theorem arrayElemCmp_trans : TransCmpLe arrayElemCmp := by
  intro a b c hab hbc
  simp only [cmpLe, arrayElemCmp_eq_arrKeyCmp] at hab hbc ⊢
  exact arrKeyCmp_trans _ _ _ hab hbc

/-! ## Generic facts about `sortBy` for lawful comparators -/

theorem cmpLe_total {cmp : α → α → Ordering} (ho : OrientedCmp cmp) (a b : α) :
    cmpLe cmp a b ∨ cmpLe cmp b a := by
  by_cases h : cmp a b = .gt
  · right
    have hs := ho a b
    simp [cmpLe, hs, h, Ordering.swap]
  · left; exact h

theorem sortBy_sorted {cmp : α → α → Ordering} (ho : OrientedCmp cmp) (ht : TransCmpLe cmp)
    (l : List α) : List.Sorted (cmpLe cmp) (sortBy cmp l) :=
  have hT : IsTotal α (cmpLe cmp) := ⟨cmpLe_total ho⟩
  have hTr : IsTrans α (cmpLe cmp) := ⟨ht⟩
  List.sorted_insertionSort _ l

theorem sortBy_sorted_eq {cmp : α → α → Ordering} {l : List α}
    (h : List.Sorted (cmpLe cmp) l) : sortBy cmp l = l :=
  List.Sorted.insertionSort_eq h

theorem sortBy_idem {cmp : α → α → Ordering} (ho : OrientedCmp cmp) (ht : TransCmpLe cmp)
    (l : List α) : sortBy cmp (sortBy cmp l) = sortBy cmp l :=
  sortBy_sorted_eq (sortBy_sorted ho ht l)

/-- Sorting entries and then taking keys is sorting the keys: `entryCmp` only
reads keys. -/
theorem sortBy_entry_map_key (rank : Str → Option Nat) (l : List (Entry α)) :
    (sortBy (fun x y : Entry α => entryCmp rank x y) l).map Entry.key
      = sortBy (keyCmp rank) (l.map Entry.key) :=
  List.map_insertionSort _ _ _ _ (fun a _ b _ => Iff.rfl)

end TomlSort

namespace TomlSort

/-! ## Keys, lookups and insertion -/

/-- The keys of an association list of entries. -/
def keysOf (l : List (Entry α)) : List Str := l.map Entry.key

theorem keysOf_append (l₁ l₂ : List (Entry α)) :
    keysOf (l₁ ++ l₂) = keysOf l₁ ++ keysOf l₂ := List.map_append _ _ _

theorem keysOf_sortBy (rank : Str → Option Nat) (l : List (Entry α)) :
    List.Perm (keysOf (sortBy (fun x y : Entry α => entryCmp rank x y) l)) (keysOf l) :=
  List.Perm.map _ (sortBy_perm _ l)

theorem find?_key_self {es : List (Entry α)} {e : Entry α}
    (hnd : (keysOf es).Nodup) (he : e ∈ es) :
    (es.find? fun x => x.key == e.key) = some e := by
  induction es with
  | nil => cases he
  | cons x rest ih =>
    rcases List.mem_cons.mp he with rfl | hmem
    · simp [List.find?]
    · have hne : x.key ≠ e.key := by
        intro hk
        have hx' : e.key ∈ keysOf rest := List.mem_map.mpr ⟨e, hmem, rfl⟩
        rw [← hk] at hx'
        exact (List.nodup_cons.mp hnd).1 hx'
      have hbeq : (x.key == e.key) = false := beq_eq_false_iff_ne.mpr hne
      simp only [List.find?, hbeq]
      exact ih (List.nodup_cons.mp hnd).2 hmem

theorem keyDecorLookup_self {es : List (Entry Item)} {e : Entry Item}
    (hnd : (keysOf es).Nodup) (he : e ∈ es) :
    keyDecorLookup es e.key = some e.decor := by
  rw [keyDecorLookup, find?_key_self hnd he]
  rfl

theorem keyDecorLookup_isSome {es : List (Entry Item)} {k : Str}
    (h : k ∈ keysOf es) : (keyDecorLookup es k).isSome := by
  rcases List.mem_map.mp h with ⟨e, he, rfl⟩
  rw [keyDecorLookup, Option.isSome_map']
  exact List.find?_isSome.mpr ⟨e, he, by simp⟩

theorem inlineKeyDecor_isSome {es : List (Entry TValue)} {e : Entry TValue}
    (he : e ∈ es) : (inlineKeyDecor es e.key).isSome := by
  rw [inlineKeyDecor, Option.isSome_map']
  exact List.find?_isSome.mpr ⟨e, he, by simp⟩

theorem checkDecorsGo_isSome (tbl : List (Entry TValue)) :
    ∀ l, (∀ e ∈ l, e ∈ tbl) → (checkDecorsGo tbl l).isSome := by
  intro l
  induction l with
  | nil => intro _; simp [checkDecorsGo]
  | cons e rest ih =>
    intro hmem
    rcases Option.isSome_iff_exists.mp (inlineKeyDecor_isSome (hmem e (by simp))) with ⟨d, hd⟩
    rcases Option.isSome_iff_exists.mp (ih fun x hx => hmem x (by simp [hx])) with ⟨ds, hds⟩
    simp [checkDecorsGo, hd, hds]

theorem checkInlineDecors_isSome (es : List (Entry TValue)) :
    (checkInlineDecors es).isSome :=
  checkDecorsGo_isSome es es fun _ hx => hx

theorem insertEntry_append {out : List (Entry α)} {e : Entry α}
    (h : e.key ∉ keysOf out) : insertEntry out e = out ++ [e] := by
  rw [insertEntry, if_neg]
  simp only [List.any_eq_true, not_exists, not_and, Bool.not_eq_true]
  intro x hx
  rw [beq_eq_false_iff_ne]
  intro hk
  exact h (List.mem_map.mpr ⟨x, hx, hk⟩)

/-- Give the first entry of a section the section prefix. -/
def attachPre (sp : Option Str) : List (Entry Item) → List (Entry Item)
  | [] => []
  | e :: rest =>
    match sp with
    | some p => { e with decor := { e.decor with pre := some p } } :: rest
    | none => e :: rest

/-- The entries a flushed section contributes to the output table. -/
def sectionOut (rank : Str → Option Nat) (sp : Option Str) (sec : List (Entry Item)) :
    List (Entry Item) :=
  attachPre sp (sortBy (fun x y : Entry Item => entryCmp rank x y) sec)

theorem keysOf_attachPre (sp : Option Str) (l : List (Entry Item)) :
    keysOf (attachPre sp l) = keysOf l := by
  cases l with
  | nil => rfl
  | cons e rest => cases sp <;> simp [attachPre, keysOf]

theorem emitSorted_ne_zero (sp : Option Str) :
    ∀ (l : List (Entry Item)) (i : Nat) (out : List (Entry Item)), i ≠ 0 →
      (∀ x ∈ l, x.key ∉ keysOf out) → (keysOf l).Nodup →
      emitSorted sp l i out = out ++ l := by
  intro l
  induction l with
  | nil => intro i out _ _ _; simp [emitSorted]
  | cons e rest ih =>
    intro i out hi hfresh hnd
    have hne : ∀ x ∈ rest, x.key ≠ e.key := by
      intro x hx hk
      have hx' : x.key ∈ keysOf rest := List.mem_map.mpr ⟨x, hx, rfl⟩
      rw [hk] at hx'
      exact (List.nodup_cons.mp hnd).1 hx'
    have hfresh' : ∀ x ∈ rest, x.key ∉ keysOf (out ++ [e]) := by
      intro x hx
      rw [keysOf_append]
      simp only [List.mem_append, not_or]
      refine ⟨hfresh x (List.mem_cons_of_mem e hx), fun hmem => hne x hx ?_⟩
      simpa [keysOf] using hmem
    simp only [emitSorted]
    rw [if_neg hi, insertEntry_append (hfresh e (by simp)),
      ih (i + 1) (out ++ [e]) (by omega) hfresh' (List.nodup_cons.mp hnd).2]
    simp

theorem emitSorted_zero (sp : Option Str) {l out : List (Entry Item)}
    (hfresh : ∀ x ∈ l, x.key ∉ keysOf out) (hnd : (keysOf l).Nodup) :
    emitSorted sp l 0 out = out ++ attachPre sp l := by
  cases l with
  | nil => simp [emitSorted, attachPre]
  | cons e rest =>
    have hne : ∀ x ∈ rest, x.key ≠ e.key := by
      intro x hx hk
      have hx' : x.key ∈ keysOf rest := List.mem_map.mpr ⟨x, hx, rfl⟩
      rw [hk] at hx'
      exact (List.nodup_cons.mp hnd).1 hx'
    have hfresh' : ∀ (e1 : Entry Item), e1.key = e.key →
        ∀ x ∈ rest, x.key ∉ keysOf (out ++ [e1]) := by
      intro e1 hk x hx
      rw [keysOf_append]
      simp only [List.mem_append, not_or]
      refine ⟨hfresh x (List.mem_cons_of_mem e hx), fun hmem => hne x hx ?_⟩
      simpa [keysOf, hk] using hmem
    cases sp with
    | none =>
      simp only [emitSorted, attachPre, if_true]
      rw [insertEntry_append (hfresh e (by simp)),
        emitSorted_ne_zero none rest 1 (out ++ [e]) (by omega) (hfresh' e rfl)
          (List.nodup_cons.mp hnd).2]
      simp
    | some p =>
      simp only [emitSorted, attachPre, if_true]
      rw [insertEntry_append (h := by
          show ({ e with decor := { e.decor with pre := some p } } : Entry Item).key ∉ keysOf out
          exact hfresh e (by simp)),
        emitSorted_ne_zero (some p) rest 1
          (out ++ [{ e with decor := { e.decor with pre := some p } }]) (by omega)
          (hfresh' _ rfl) (List.nodup_cons.mp hnd).2]
      simp

theorem flushSection_eq {sec out : List (Entry Item)} (rank : Str → Option Nat) (secDecor : Decor)
    (hfresh : ∀ x ∈ sec, x.key ∉ keysOf out) (hnd : (keysOf sec).Nodup) :
    flushSection rank secDecor sec out = out ++ sectionOut rank secDecor.pre sec := by
  rw [flushSection, sectionOut]
  exact emitSorted_zero _
    (fun x hx => hfresh x ((sortBy_perm _ sec).mem_iff.mp hx))
    ((keysOf_sortBy rank sec).nodup_iff.mpr hnd)

end TomlSort

namespace TomlSort

/-! ## Characterizing the entry scan of `format_table` as a section pipeline -/

/-- Trim trailing newlines from a key suffix decor (lib.rs lines 233-236). -/
def trimSufD (d : Decor) : Decor :=
  match d.suf with
  | some s => { d with suf := some (trimEndNewlines s) }
  | none => d

/-- Replace an entry's prefix decor. -/
def setPre (e : Entry Item) (p : Option Str) : Entry Item :=
  { e with decor := { e.decor with pre := p } }

/-- A later entry whose key prefix starts with a newline opens a new section
(lib.rs lines 205-209). -/
def isBoundary (e : Entry Item) : Bool :=
  match e.decor.pre with
  | some p => startsWith p ['\n']
  | none => false

/-- The per-entry work of the scan loop besides section bookkeeping: trim the
key suffix and format the item. -/
def procEntry (c : ProcessedConfig) (e : Entry Item) : Option (Entry Item) :=
  (formatItem c e.value).map fun it => ⟨e.key, it, trimSufD e.decor⟩

/-- The section pipeline equivalent to the scan loop from its second entry on:
split the remaining entries at boundaries, process each entry, and emit each
finished section sorted with its section prefix on its first entry. -/
def pipeGo (c : ProcessedConfig) (sp : Option Str) (cur : List (Entry Item)) :
    List (Entry Item) → Option (List (Entry Item))
  | [] => pure (sectionOut c.keys sp cur)
  | e :: rest =>
    if isBoundary e then do
      let pe ← procEntry c (setPre e (some []))
      let outs ← pipeGo c (some (e.decor.pre.getD [])) [pe] rest
      pure (sectionOut c.keys sp cur ++ outs)
    else do
      let pe ← procEntry c e
      pipeGo c sp (cur ++ [pe]) rest

/-- The whole entry scan as a pipeline: the first entry donates a non-empty key
prefix to the first section (lib.rs lines 196-203), then the sections follow. -/
def pipeline (c : ProcessedConfig) : List (Entry Item) → Option (List (Entry Item))
  | [] => pure []
  | e :: rest =>
    let st :=
      match e.decor.pre with
      | some p => if !p.isEmpty then (some p, setPre e (some [])) else (none, e)
      | none => (none, e)
    do
      let pe ← procEntry c st.2
      pipeGo c st.1 [pe] rest

theorem keysOf_cons (e : Entry α) (l : List (Entry α)) :
    keysOf (e :: l) = e.key :: keysOf l := rfl

/-! ### One-step shapes of the scan loop -/

theorem scanEntries_nil (c : ProcessedConfig) (all : List (Entry Item)) (i : Nat)
    (secD : Decor) (sec out : List (Entry Item)) :
    scanEntries c all i secD sec out [] = pure (flushSection c.keys secD sec out) := by
  simp [scanEntries]

theorem scanEntries_cons_boundary (c : ProcessedConfig) (all : List (Entry Item)) {i : Nat}
    (hi : i ≠ 0) (secD : Decor) (sec out : List (Entry Item)) {e : Entry Item}
    (rest : List (Entry Item)) (hkd : keyDecorLookup all e.key = some e.decor)
    {p : Str} (hp : e.decor.pre = some p) (hb : startsWith p ['\n'] = true) :
    scanEntries c all i secD sec out (e :: rest)
      = (formatItem c e.value).bind fun it =>
          scanEntries c all (i + 1) ⟨some p, none⟩
            [⟨e.key, it, trimSufD { e.decor with pre := some [] }⟩]
            (flushSection c.keys secD sec out) rest := by
  rw [scanEntries, hkd]
  rcases hsuf : e.decor.suf with _ | s <;>
    simp only [Option.bind_eq_bind, Option.some_bind, if_neg hi, hp, hb, eq_self_iff_true,
      if_true, hsuf, trimSufD] <;> rfl

theorem scanEntries_cons_plain (c : ProcessedConfig) (all : List (Entry Item)) {i : Nat}
    (hi : i ≠ 0) (secD : Decor) (sec out : List (Entry Item)) {e : Entry Item}
    (rest : List (Entry Item)) (hkd : keyDecorLookup all e.key = some e.decor)
    (hnb : isBoundary e = false) :
    scanEntries c all i secD sec out (e :: rest)
      = (formatItem c e.value).bind fun it =>
          scanEntries c all (i + 1) secD (sec ++ [⟨e.key, it, trimSufD e.decor⟩]) out rest := by
  rw [scanEntries, hkd]
  rcases hp : e.decor.pre with _ | p
  · rcases hsuf : e.decor.suf with _ | s <;>
      simp only [Option.bind_eq_bind, Option.some_bind, if_neg hi, hp, hsuf, trimSufD] <;> rfl
  · have hb : startsWith p ['\n'] = false := by
      rw [isBoundary, hp] at hnb
      exact hnb
    rcases hsuf : e.decor.suf with _ | s <;>
      simp only [Option.bind_eq_bind, Option.some_bind, if_neg hi, hp, hb, Bool.false_eq_true,
        if_false, hsuf, trimSufD] <;> rfl

theorem scanEntries_cons_first (c : ProcessedConfig) (all : List (Entry Item))
    (secD : Decor) (sec out : List (Entry Item)) {e : Entry Item}
    (rest : List (Entry Item)) (hkd : keyDecorLookup all e.key = some e.decor)
    {p : Str} (hp : e.decor.pre = some p) (hne : p.isEmpty = false) :
    scanEntries c all 0 secD sec out (e :: rest)
      = (formatItem c e.value).bind fun it =>
          scanEntries c all 1 { secD with pre := some p }
            (sec ++ [⟨e.key, it, trimSufD { e.decor with pre := some [] }⟩]) out rest := by
  rw [scanEntries, hkd]
  rcases hsuf : e.decor.suf with _ | s <;>
    simp only [Option.bind_eq_bind, Option.some_bind, eq_self_iff_true, if_true, hp, hne,
      Bool.not_false, hsuf, trimSufD] <;> rfl

theorem scanEntries_cons_first_plain (c : ProcessedConfig) (all : List (Entry Item))
    (secD : Decor) (sec out : List (Entry Item)) {e : Entry Item}
    (rest : List (Entry Item)) (hkd : keyDecorLookup all e.key = some e.decor)
    (hp : e.decor.pre = none ∨ e.decor.pre = some []) :
    scanEntries c all 0 secD sec out (e :: rest)
      = (formatItem c e.value).bind fun it =>
          scanEntries c all 1 secD (sec ++ [⟨e.key, it, trimSufD e.decor⟩]) out rest := by
  rw [scanEntries, hkd]
  rcases hp with hp | hp <;> rcases hsuf : e.decor.suf with _ | s <;>
    simp only [Option.bind_eq_bind, Option.some_bind, eq_self_iff_true, if_true, hp,
      List.isEmpty_nil, Bool.not_true, Bool.false_eq_true, if_false, hsuf, trimSufD] <;> rfl

end TomlSort

namespace TomlSort

/-- Invariant of the scan loop: keys are distinct across the output table, the
current section and the remaining entries. -/
structure ScanInv (out sec rest : List (Entry Item)) : Prop where
  ndOut : (keysOf out).Nodup
  ndSec : (keysOf sec).Nodup
  ndRest : (keysOf rest).Nodup
  dSecOut : ∀ k ∈ keysOf sec, k ∉ keysOf out
  dRestOut : ∀ k ∈ keysOf rest, k ∉ keysOf out
  dRestSec : ∀ k ∈ keysOf rest, k ∉ keysOf sec

theorem keysOf_sectionOut (rank : Str → Option Nat) (sp : Option Str) (sec : List (Entry Item)) :
    List.Perm (keysOf (sectionOut rank sp sec)) (keysOf sec) := by
  rw [sectionOut, keysOf_attachPre]
  exact keysOf_sortBy rank sec

theorem ScanInv.head_not_rest {out sec rest : List (Entry Item)} {e : Entry Item}
    (hinv : ScanInv out sec (e :: rest)) : e.key ∉ keysOf rest := by
  have h := hinv.ndRest
  rw [keysOf_cons] at h
  exact (List.nodup_cons.mp h).1

theorem ScanInv.tail_nd {out sec rest : List (Entry Item)} {e : Entry Item}
    (hinv : ScanInv out sec (e :: rest)) : (keysOf rest).Nodup := by
  have h := hinv.ndRest
  rw [keysOf_cons] at h
  exact (List.nodup_cons.mp h).2

/-- Invariant update for a boundary entry: the current section moves to the
output and the entry opens a fresh section. -/
theorem ScanInv.boundary_step {out sec rest : List (Entry Item)} {e : Entry Item}
    (hinv : ScanInv out sec (e :: rest)) (rank : Str → Option Nat) (sp : Option Str)
    (it : Item) (d : Decor) :
    ScanInv (out ++ sectionOut rank sp sec) [⟨e.key, it, d⟩] rest := by
  have hperm := keysOf_sectionOut rank sp sec
  constructor
  · rw [keysOf_append]
    exact List.nodup_append.mpr ⟨hinv.ndOut, hperm.nodup_iff.mpr hinv.ndSec,
      fun k hk hk2 => hinv.dSecOut k (hperm.mem_iff.mp hk2) hk⟩
  · simp [keysOf]
  · exact hinv.tail_nd
  · intro k hk
    have hk' : k = e.key := by simpa [keysOf] using hk
    subst hk'
    rw [keysOf_append]
    simp only [List.mem_append, not_or]
    exact ⟨hinv.dRestOut e.key (by simp [keysOf_cons]),
      fun hmem => hinv.dRestSec e.key (by simp [keysOf_cons]) (hperm.mem_iff.mp hmem)⟩
  · intro k hk
    rw [keysOf_append]
    simp only [List.mem_append, not_or]
    exact ⟨hinv.dRestOut k (by simp [keysOf_cons, hk]),
      fun hmem => hinv.dRestSec k (by simp [keysOf_cons, hk]) (hperm.mem_iff.mp hmem)⟩
  · intro k hk hmem
    have hk' : k = e.key := by simpa [keysOf] using hmem
    subst hk'
    exact hinv.head_not_rest hk

/-- Invariant update for a non-boundary entry: the entry joins the current
section. -/
theorem ScanInv.plain_step {out sec rest : List (Entry Item)} {e : Entry Item}
    (hinv : ScanInv out sec (e :: rest)) (it : Item) (d : Decor) :
    ScanInv out (sec ++ [⟨e.key, it, d⟩]) rest := by
  constructor
  · exact hinv.ndOut
  · rw [keysOf_append]
    refine List.nodup_append.mpr ⟨hinv.ndSec, by simp [keysOf], fun k hk hk2 => ?_⟩
    have hk' : k = e.key := by simpa [keysOf] using hk2
    subst hk'
    exact hinv.dRestSec e.key (by simp [keysOf_cons]) hk
  · exact hinv.tail_nd
  · intro k hk
    rw [keysOf_append] at hk
    rcases List.mem_append.mp hk with hk | hk
    · exact hinv.dSecOut k hk
    · have hk' : k = e.key := by simpa [keysOf] using hk
      subst hk'
      exact hinv.dRestOut e.key (by simp [keysOf_cons])
  · intro k hk
    exact hinv.dRestOut k (by simp [keysOf_cons, hk])
  · intro k hk
    rw [keysOf_append]
    simp only [List.mem_append, not_or]
    refine ⟨hinv.dRestSec k (by simp [keysOf_cons, hk]), fun hmem => ?_⟩
    have hk' : k = e.key := by simpa [keysOf] using hmem
    subst hk'
    exact hinv.head_not_rest hk

theorem scanEntries_eq_pipeGo (c : ProcessedConfig) (all : List (Entry Item)) :
    ∀ (rest : List (Entry Item)) (i : Nat) (secD : Decor) (sec out : List (Entry Item)),
      i ≠ 0 →
      (∀ e ∈ rest, keyDecorLookup all e.key = some e.decor) →
      ScanInv out sec rest →
      scanEntries c all i secD sec out rest
        = (pipeGo c secD.pre sec rest).map fun l => out ++ l := by
  intro rest
  induction rest with
  | nil =>
    intro i secD sec out hi hlk hinv
    rw [scanEntries_nil, pipeGo,
      flushSection_eq c.keys secD
        (fun x hx => hinv.dSecOut x.key (List.mem_map.mpr ⟨x, hx, rfl⟩)) hinv.ndSec]
    rfl
  | cons e rest ih =>
    intro i secD sec out hi hlk hinv
    have hkd := hlk e (by simp)
    have hlk' : ∀ x ∈ rest, keyDecorLookup all x.key = some x.decor :=
      fun x hx => hlk x (by simp [hx])
    by_cases hb : isBoundary e = true
    · obtain ⟨p, hp, hpb⟩ : ∃ p, e.decor.pre = some p ∧ startsWith p ['\n'] = true := by
        rw [isBoundary] at hb
        rcases hq : e.decor.pre with _ | q
        · rw [hq] at hb; cases hb
        · rw [hq] at hb; exact ⟨q, rfl, hb⟩
      rw [scanEntries_cons_boundary c all hi secD sec out rest hkd hp hpb, pipeGo, if_pos hb]
      rcases hit : formatItem c e.value with _ | it
      · simp [procEntry, setPre, hit]
      · have hflush := @flushSection_eq sec out c.keys secD
          (fun x hx => hinv.dSecOut x.key (List.mem_map.mpr ⟨x, hx, rfl⟩)) hinv.ndSec
        have hih := ih (i + 1) ⟨some p, none⟩
          [⟨e.key, it, trimSufD { e.decor with pre := some [] }⟩]
          (out ++ sectionOut c.keys secD.pre sec) (by omega) hlk'
          (hinv.boundary_step c.keys secD.pre it (trimSufD { e.decor with pre := some [] }))
        rw [Option.some_bind, hflush, hih]
        simp only [procEntry, setPre, hit, Option.map_some', Option.bind_eq_bind,
          Option.some_bind, hp, Option.getD_some]
        rcases hgo : pipeGo c (some p) [⟨e.key, it, trimSufD { e.decor with pre := some [] }⟩] rest
          with _ | l
        · simp [hgo]
        · simp [hgo, List.append_assoc]
    · have hb' : isBoundary e = false := by
        revert hb
        cases isBoundary e <;> simp
      rw [scanEntries_cons_plain c all hi secD sec out rest hkd hb', pipeGo, if_neg (by simp [hb'])]
      rcases hit : formatItem c e.value with _ | it
      · simp [procEntry, hit]
      · simp only [Option.some_bind]
        have hih := ih (i + 1) secD (sec ++ [⟨e.key, it, trimSufD e.decor⟩]) out (by omega) hlk'
          (hinv.plain_step it (trimSufD e.decor))
        rw [hih]
        simp [procEntry, hit]

/-- The entry scan of `format_table`, started as `format_table` starts it, equals
the section pipeline (for a table with distinct keys). -/
theorem pipeline_nil (c : ProcessedConfig) : pipeline c [] = pure [] := rfl

theorem pipeline_cons_plain (c : ProcessedConfig) {e : Entry Item} (rest : List (Entry Item))
    (hp : e.decor.pre = none ∨ e.decor.pre = some []) :
    pipeline c (e :: rest) = (procEntry c e).bind fun pe => pipeGo c none [pe] rest := by
  rcases hp with hp | hp <;> simp [pipeline, hp]

theorem pipeline_cons_first (c : ProcessedConfig) {e : Entry Item} (rest : List (Entry Item))
    {p : Str} (hp : e.decor.pre = some p) (hne : p.isEmpty = false) :
    pipeline c (e :: rest)
      = (procEntry c (setPre e (some []))).bind fun pe => pipeGo c (some p) [pe] rest := by
  simp [pipeline, hp, hne]

theorem scanEntries_eq_pipeline (c : ProcessedConfig) (es : List (Entry Item))
    (hnd : (keysOf es).Nodup) :
    scanEntries c es 0 Decor.default [] [] es = pipeline c es := by
  cases es with
  | nil =>
    rw [scanEntries_nil]
    rfl
  | cons e rest =>
    have hkd : keyDecorLookup (e :: rest) e.key = some e.decor :=
      keyDecorLookup_self hnd (by simp)
    have hlk : ∀ x ∈ rest, keyDecorLookup (e :: rest) x.key = some x.decor :=
      fun x hx => keyDecorLookup_self hnd (by simp [hx])
    have hinv : ∀ (it : Item) (d : Decor), ScanInv [] [⟨e.key, it, d⟩] rest := by
      intro it d
      constructor
      · simp [keysOf]
      · simp [keysOf]
      · rw [keysOf_cons] at hnd
        exact (List.nodup_cons.mp hnd).2
      · intro k _ hk
        simp [keysOf] at hk
      · intro k _ hk
        simp [keysOf] at hk
      · intro k hk hmem
        have hk' : k = e.key := by simpa [keysOf] using hmem
        subst hk'
        rw [keysOf_cons] at hnd
        exact (List.nodup_cons.mp hnd).1 hk
    have hplain : ∀ (hp : e.decor.pre = none ∨ e.decor.pre = some []),
        scanEntries c (e :: rest) 0 Decor.default [] [] (e :: rest) = pipeline c (e :: rest) := by
      intro hp
      rw [scanEntries_cons_first_plain c (e :: rest) Decor.default [] [] rest hkd hp,
        pipeline_cons_plain c rest hp]
      rcases hit : formatItem c e.value with _ | it
      · simp [procEntry, hit]
      · simp only [Option.some_bind, List.nil_append, procEntry, hit, Option.map_some',
          Option.bind_eq_bind]
        have hih := scanEntries_eq_pipeGo c (e :: rest) rest 1 Decor.default
          [⟨e.key, it, trimSufD e.decor⟩] [] (by omega) hlk (hinv it (trimSufD e.decor))
        rw [hih]
        rcases hgo : pipeGo c none [⟨e.key, it, trimSufD e.decor⟩] rest with _ | l
        · have hgo' : pipeGo c Decor.default.pre [⟨e.key, it, trimSufD e.decor⟩] rest = none := hgo
          simp [hgo, hgo']
        · have hgo' : pipeGo c Decor.default.pre [⟨e.key, it, trimSufD e.decor⟩] rest
              = some l := hgo
          simp [hgo, hgo']
    rcases hq : e.decor.pre with _ | q
    · exact hplain (Or.inl hq)
    · by_cases hqe : q.isEmpty = true
      · exact hplain (Or.inr (by rw [hq, List.isEmpty_iff.mp hqe]))
      · have hqe' : q.isEmpty = false := by
          revert hqe
          cases q.isEmpty <;> simp
        rw [scanEntries_cons_first c (e :: rest) Decor.default [] [] rest hkd hq hqe',
          pipeline_cons_first c rest hq hqe']
        rcases hit : formatItem c e.value with _ | it
        · simp [procEntry, setPre, hit]
        · simp only [Option.some_bind, List.nil_append, setPre, procEntry, hit,
            Option.map_some', Option.bind_eq_bind]
          have hih := scanEntries_eq_pipeGo c (e :: rest) rest 1
            { Decor.default with pre := some q }
            [⟨e.key, it, trimSufD { e.decor with pre := some [] }⟩] [] (by omega) hlk
            (hinv it (trimSufD { e.decor with pre := some [] }))
          rw [hih]
          rcases hgo : pipeGo c (some q)
              [⟨e.key, it, trimSufD { e.decor with pre := some [] }⟩] rest with _ | l
          · have hgo' : pipeGo c ({ Decor.default with pre := some q } : Decor).pre
                [⟨e.key, it, trimSufD { e.decor with pre := some [] }⟩] rest = none := hgo
            simp [hgo, hgo']
          · have hgo' : pipeGo c ({ Decor.default with pre := some q } : Decor).pre
                [⟨e.key, it, trimSufD { e.decor with pre := some [] }⟩] rest = some l := hgo
            simp [hgo, hgo']

/-- `format_table` in pipeline form. -/
theorem format_table_eq_pipeline (c : ProcessedConfig) (t : TTable)
    (hnd : (keysOf t.entries).Nodup) :
    format_table c t = (pipeline c t.entries).map fun es =>
      .mk es ⟨some (t.decor.pre.getD []), some (t.decor.suf.getD [])⟩ true := by
  rw [format_table, scanEntries_eq_pipeline c t.entries hnd]
  rcases h : pipeline c t.entries with _ | es
  · rfl
  · rfl

end TomlSort

namespace TomlSort

/-! ## Totality: the formatters never fail -/

theorem format_value_isSome (c : ProcessedConfig) : ∀ (v : TValue) (last : Bool),
    (format_value c v last).isSome = true := by
  refine format_value.induct c
    (fun v last => (format_value c v last).isSome = true)
    (fun entries last => (format_inline_table c entries last).isSome = true)
    (fun len i l => (formatEntries c len i l).isSome = true)
    (fun values trailing last => (format_array c values trailing last).isSome = true)
    (fun len i l => (formatInline c len i l).isSome = true)
    (fun l => (formatMulti c l).isSome = true)
    ?_ ?_ ?_ ?_ ?_ ?_ ?_ ?_ ?_ ?_ ?_ ?_
  · intro last values trailing tc d h
    simpa [format_value] using h
  · intro last entries d h
    simpa [format_value] using h
  · intro last v hna hni
    cases v with
    | strV s r d => simp [format_value]
    | other r d => simp [format_value]
    | arr values trailing tc d => exact absurd rfl (hna values trailing tc d)
    | inlineTab entries d => exact absurd rfl (hni entries d)
  · intro entries last h
    simp only at h
    rcases Option.isSome_iff_exists.mp (checkInlineDecors_isSome entries) with ⟨ds, hds⟩
    rcases Option.isSome_iff_exists.mp h with ⟨es, hes⟩
    simp [format_inline_table, hds, hes]
  · intro len i
    simp [formatEntries]
  · intro len i e rest h1 h3
    rcases Option.isSome_iff_exists.mp h1 with ⟨fv, hfv⟩
    rcases Option.isSome_iff_exists.mp h3 with ⟨rest', hrest⟩
    simp [formatEntries, hfv, hrest]
  · intro values trailing last hsorted hstart hm
    rcases Option.isSome_iff_exists.mp hm with ⟨vals, hvals⟩
    have hvals' : formatMulti c
        (if c.sortStringArrays = true then sortBy arrayElemCmp values else values)
        = some vals := hvals
    simp [format_array, hstart, hvals']
  · intro values trailing last hsorted hstart hm
    rcases Option.isSome_iff_exists.mp hm with ⟨vals, hvals⟩
    have hvals' : formatInline c
        (if c.sortStringArrays = true then sortBy arrayElemCmp values else values).length 0
        (if c.sortStringArrays = true then sortBy arrayElemCmp values else values)
        = some vals := hvals
    simp [format_array, hstart, hvals']
  · intro len i
    simp [formatInline]
  · intro len i v rest h1 h5
    rcases Option.isSome_iff_exists.mp h1 with ⟨fv, hfv⟩
    rcases Option.isSome_iff_exists.mp h5 with ⟨rest', hrest⟩
    simp [formatInline, hfv, hrest]
  · simp [formatMulti]
  · intro v rest h1 h6
    rcases Option.isSome_iff_exists.mp h1 with ⟨fv, hfv⟩
    rcases Option.isSome_iff_exists.mp h6 with ⟨rest', hrest⟩
    simp [formatMulti, hfv, hrest]

theorem format_inline_table_isSome (c : ProcessedConfig) (entries : List (Entry TValue))
    (last : Bool) : (format_inline_table c entries last).isSome = true := by
  have h := format_value_isSome c (.inlineTab entries Decor.default) last
  simpa [format_value] using h

theorem format_array_isSome (c : ProcessedConfig) (values : List TValue) (trailing : Str)
    (last : Bool) : (format_array c values trailing last).isSome = true := by
  have h := format_value_isSome c (.arr values trailing false Decor.default) last
  simpa [format_value] using h

end TomlSort

namespace TomlSort

theorem format_table_isSome (c : ProcessedConfig) : ∀ (t : TTable),
    (format_table c t).isSome = true := by
  refine format_table.induct c
    (fun t => (format_table c t).isSome = true)
    (fun all i secD sec out rest =>
      (∀ e ∈ rest, e.key ∈ keysOf all) → (scanEntries c all i secD sec out rest).isSome = true)
    (fun it => (formatItem c it).isSome = true)
    ?_ ?_ ?_ ?_ ?_ ?_ ?_
  · intro t h2
    have hsub : ∀ e ∈ t.entries, e.key ∈ keysOf t.entries :=
      fun e he => List.mem_map.mpr ⟨e, he, rfl⟩
    rcases Option.isSome_iff_exists.mp (h2 hsub) with ⟨es, hes⟩
    simp [format_table, hes]
  · intro all i secD sec out _
    simp [scanEntries_nil]
  · intro all i secD sec out e rest h3 hIH hsub
    rcases Option.isSome_iff_exists.mp
      (keyDecorLookup_isSome (hsub e (by simp))) with ⟨kd, hkd⟩
    rcases Option.isSome_iff_exists.mp h3 with ⟨it, hit⟩
    have htail : ∀ x ∈ rest, x.key ∈ keysOf all := fun x hx => hsub x (by simp [hx])
    have hrec := (hIH kd it) htail
    rw [scanEntries, hkd]
    simp only [Option.bind_eq_bind, Option.some_bind, hit]
    exact hrec
  · simp [formatItem]
  · intro a
    rcases Option.isSome_iff_exists.mp (format_value_isSome c a false) with ⟨fv, hfv⟩
    simp [formatItem, hfv]
  · intro a h1
    rcases Option.isSome_iff_exists.mp h1 with ⟨ft, hft⟩
    simp [formatItem, hft]
  · intro a
    simp [formatItem]

end TomlSort

namespace TomlSort

/-! ## The implicit flag -/

mutual

/-- A table whose `implicit` flag is set, recursively through nested tables. -/
def tableImplicit (t : TTable) : Bool :=
  t.implicit && entriesImplicit t.entries
termination_by 3 * sizeOf t
decreasing_by
  simp_wf
  cases t with
  | mk es d imp =>
    have h := itemsSize_lt_sizeOf es
    simp [TTable.entries]
    omega

def entriesImplicit (l : List (Entry Item)) : Bool :=
  match l with
  | [] => true
  | e :: rest => itemImplicit e.value && entriesImplicit rest
termination_by 3 * itemsSize l + 2
decreasing_by
  all_goals
    rw [itemsSize_cons]
    have h : 0 < sizeOf e.value := by cases e.value <;> simp
    omega

def itemImplicit (it : Item) : Bool :=
  match it with
  | .table t => tableImplicit t
  | _ => true
termination_by 3 * sizeOf it + 1
decreasing_by
  simp_wf
  omega

end

theorem entriesImplicit_all (l : List (Entry Item)) :
    entriesImplicit l = l.all fun e => itemImplicit e.value := by
  induction l with
  | nil => simp [entriesImplicit]
  | cons e rest ih => simp [entriesImplicit, ih]

theorem entriesImplicit_insertEntry {out : List (Entry Item)} {e : Entry Item}
    (hout : entriesImplicit out = true) (he : itemImplicit e.value = true) :
    entriesImplicit (insertEntry out e) = true := by
  rw [entriesImplicit_all] at hout ⊢
  rw [insertEntry]
  split
  · simp only [List.all_eq_true] at hout ⊢
    intro x hx
    rcases List.mem_map.mp hx with ⟨y, hy, rfl⟩
    split
    · exact he
    · exact hout y hy
  · simp only [List.all_eq_true] at hout ⊢
    intro x hx
    rcases List.mem_append.mp hx with hx | hx
    · exact hout x hx
    · simp only [List.mem_singleton] at hx
      subst hx
      exact he

theorem entriesImplicit_emitSorted (sp : Option Str) :
    ∀ (l : List (Entry Item)) (i : Nat) (out : List (Entry Item)),
      entriesImplicit out = true → (∀ x ∈ l, itemImplicit x.value = true) →
      entriesImplicit (emitSorted sp l i out) = true := by
  intro l
  induction l with
  | nil => intro i out hout _; simpa [emitSorted] using hout
  | cons e rest ih =>
    intro i out hout hl
    simp only [emitSorted]
    apply ih
    · split
      · split
        · exact entriesImplicit_insertEntry hout (hl e (by simp))
        · exact entriesImplicit_insertEntry hout (hl e (by simp))
      · exact entriesImplicit_insertEntry hout (hl e (by simp))
    · intro x hx
      exact hl x (by simp [hx])

theorem entriesImplicit_flushSection (rank : Str → Option Nat) (secD : Decor)
    {sec out : List (Entry Item)} (hout : entriesImplicit out = true)
    (hsec : ∀ x ∈ sec, itemImplicit x.value = true) :
    entriesImplicit (flushSection rank secD sec out) = true := by
  rw [flushSection]
  exact entriesImplicit_emitSorted _ _ 0 out hout
    fun x hx => hsec x ((sortBy_perm _ sec).mem_iff.mp hx)

theorem format_table_implicit (c : ProcessedConfig) : ∀ (t : TTable),
    ∀ t', format_table c t = some t' → tableImplicit t' = true := by
  refine format_table.induct c
    (fun t => ∀ t', format_table c t = some t' → tableImplicit t' = true)
    (fun all i secD sec out rest =>
      (∀ x ∈ sec, itemImplicit x.value = true) → entriesImplicit out = true →
        ∀ l, scanEntries c all i secD sec out rest = some l → entriesImplicit l = true)
    (fun it => ∀ it', formatItem c it = some it' → itemImplicit it' = true)
    ?_ ?_ ?_ ?_ ?_ ?_ ?_
  · intro t h2 t' heq
    rw [format_table] at heq
    rcases hscan : scanEntries c t.entries 0 Decor.default [] [] t.entries with _ | es
    · rw [hscan] at heq
      cases heq
    · rw [hscan] at heq
      simp only [Option.bind_eq_bind, Option.some_bind] at heq
      have hes := h2 (by simp) (by simp [entriesImplicit]) es hscan
      cases heq
      simp [tableImplicit, TTable.implicit, TTable.entries, hes]
  · intro all i secD sec out hsec hout l heq
    rw [scanEntries_nil] at heq
    cases heq
    exact entriesImplicit_flushSection c.keys secD hout hsec
  · intro all i secD sec out e rest h3 hIH hsec hout l heq
    rw [scanEntries] at heq
    rcases hkd : keyDecorLookup all e.key with _ | kd
    · rw [hkd] at heq
      cases heq
    · rw [hkd] at heq
      simp only [Option.bind_eq_bind, Option.some_bind] at heq
      rcases hit : formatItem c e.value with _ | it
      · rw [hit] at heq
        cases heq
      · rw [hit] at heq
        simp only [Option.some_bind] at heq
        have himp := h3 it hit
        have hIH' := hIH kd
        have hsec' : ∀ (s : List (Entry Item)), (∀ x ∈ s, itemImplicit x.value = true) →
            ∀ (d : Decor) (x : Entry Item), x ∈ s ++ [(⟨e.key, it, d⟩ : Entry Item)] →
              itemImplicit x.value = true := by
          intro s hs d x hx
          rcases List.mem_append.mp hx with hx | hx
          · exact hs x hx
          · simp only [List.mem_singleton] at hx
            subst hx
            exact himp
        by_cases hi : i = 0
        · subst hi
          rcases hkp : kd.pre with _ | p
          · simp only [dite_eq_ite, reduceIte, hkp] at hIH' heq
            exact hIH' it (fun x hx => hsec' sec hsec _ x hx) hout l heq
          · by_cases hpe : p.isEmpty = true
            · simp only [dite_eq_ite, reduceIte, hkp, hpe, Bool.not_true] at hIH' heq
              exact hIH' it (fun x hx => hsec' sec hsec _ x hx) hout l heq
            · have hpe' : p.isEmpty = false := by
                revert hpe
                cases p.isEmpty <;> simp
              simp only [dite_eq_ite, reduceIte, hkp, hpe', Bool.not_false] at hIH' heq
              exact hIH' it (fun x hx => hsec' sec hsec _ x hx) hout l heq
        · rcases hkp : kd.pre with _ | p
          · simp only [dite_eq_ite, eq_false hi, if_false, hkp] at hIH' heq
            exact hIH' it (fun x hx => hsec' sec hsec _ x hx) hout l heq
          · by_cases hsw : startsWith p ['\n'] = true
            · simp only [dite_eq_ite, eq_false hi, if_false, hkp, hsw, reduceIte] at hIH' heq
              refine hIH' it (fun x hx => hsec' [] (by simp) _ x hx) ?_ l heq
              exact entriesImplicit_flushSection c.keys secD hout hsec
            · have hsw' : startsWith p ['\n'] = false := by
                revert hsw
                cases startsWith p ['\n'] <;> simp
              simp only [dite_eq_ite, eq_false hi, if_false, hkp, hsw',
                Bool.false_eq_true, reduceIte] at hIH' heq
              exact hIH' it (fun x hx => hsec' sec hsec _ x hx) hout l heq
  · intro it' heq
    rw [formatItem] at heq
    cases heq
    simp [itemImplicit]
  · intro a it' heq
    rw [formatItem] at heq
    rcases hfv : format_value c a false with _ | fv
    · rw [hfv] at heq
      cases heq
    · rw [hfv] at heq
      simp only [Option.bind_eq_bind, Option.some_bind] at heq
      cases heq
      simp [itemImplicit]
  · intro a h1 it' heq
    rw [formatItem] at heq
    rcases hft : format_table c a with _ | ft
    · rw [hft] at heq
      cases heq
    · rw [hft] at heq
      simp only [Option.bind_eq_bind, Option.some_bind] at heq
      cases heq
      simpa [itemImplicit] using h1 ft hft
  · intro a it' heq
    rw [formatItem] at heq
    cases heq
    simp [itemImplicit]

end TomlSort

namespace TomlSort

/-! ## Shared concrete examples -/

/-- A configuration with no priority keys and no string-array sorting. -/
def cfgPlain : ProcessedConfig := ⟨fun _ => none, fun _ => none, false⟩

/-! ## Claim C9 -/

/-- C9: formatting is total over well-formed input trees: `format_table` and
`format_inline_table` never reach a failure branch and always return a
successful result — in particular the key-decor lookups, taken over a table's
own keys, are never absent. -/
theorem claim_c9_formatting_total (c : ProcessedConfig) (t : TTable)
    (entries : List (Entry TValue)) (last : Bool) :
    (format_table c t).isSome = true ∧ (format_inline_table c entries last).isSome = true :=
  ⟨format_table_isSome c t, format_inline_table_isSome c entries last⟩

/-! ## Claim C10 -/

/-- C10: every table returned by `format_table` has its `implicit` flag set,
recursively including every nested formatted table (so a formatted table with no
direct entries is serialized without its header line). -/
theorem claim_c10_implicit (c : ProcessedConfig) (t t' : TTable)
    (h : format_table c t = some t') : tableImplicit t' = true :=
  format_table_implicit c t t' h

/-- Witness for C10 at a concrete input: a one-entry table holding an
explicitly-written (non-implicit) empty nested table. -/
theorem claim_c10_implicit_witness :
    tableImplicit (.mk [⟨"a".data, .table (.mk [] ⟨some [], some []⟩ true), ⟨some [], some []⟩⟩]
      ⟨some [], some []⟩ true) = true :=
  claim_c10_implicit cfgPlain
    (.mk [⟨"a".data, .table (.mk [] ⟨none, none⟩ false), ⟨some [], some []⟩⟩] ⟨none, none⟩ false)
    (.mk [⟨"a".data, .table (.mk [] ⟨some [], some []⟩ true), ⟨some [], some []⟩⟩]
      ⟨some [], some []⟩ true)
    (by simp +decide [format_table, scanEntries, formatItem, keyDecorLookup, flushSection,
      emitSorted, insertEntry, sortBy, List.insertionSort, List.orderedInsert, trimEndNewlines,
      Decor.default, TTable.entries, TTable.decor, List.find?])

end TomlSort

namespace TomlSort

/-! ## Claim C2: section isolation -/

/-- Split a table's entries into blank-line-delimited sections: a section starts
at the first entry and at every later entry whose key prefix starts with a
newline. -/
def sectionsGo (cur : List (Entry Item)) : List (Entry Item) → List (List (Entry Item))
  | [] => [cur]
  | e :: rest => if isBoundary e then cur :: sectionsGo [e] rest else sectionsGo (cur ++ [e]) rest

/-- The blank-line-delimited sections of a table's entries, in order. -/
def sections : List (Entry Item) → List (List (Entry Item))
  | [] => []
  | e :: rest => sectionsGo [e] rest

theorem keysOf_sectionOut_eq (rank : Str → Option Nat) (sp : Option Str)
    (sec : List (Entry Item)) :
    keysOf (sectionOut rank sp sec) = sortBy (keyCmp rank) (keysOf sec) := by
  rw [sectionOut, keysOf_attachPre]
  exact sortBy_entry_map_key rank sec

theorem procEntry_key {c : ProcessedConfig} {e pe : Entry Item}
    (h : procEntry c e = some pe) : pe.key = e.key := by
  rw [procEntry] at h
  rcases hit : formatItem c e.value with _ | it
  · rw [hit] at h
    cases h
  · rw [hit] at h
    simp only [Option.map_some'] at h
    cases h
    rfl

theorem pipeGo_keys (c : ProcessedConfig) :
    ∀ (rest : List (Entry Item)) (sp : Option Str) (cur curIn : List (Entry Item)),
      keysOf cur = keysOf curIn →
      ∀ l, pipeGo c sp cur rest = some l →
        keysOf l = (sectionsGo curIn rest).flatMap fun sec => sortBy (keyCmp c.keys) (keysOf sec) := by
  intro rest
  induction rest with
  | nil =>
    intro sp cur curIn hk l hl
    rw [pipeGo] at hl
    cases hl
    rw [sectionsGo]
    simp [keysOf_sectionOut_eq, hk]
  | cons e rest ih =>
    intro sp cur curIn hk l hl
    rw [pipeGo] at hl
    by_cases hb : isBoundary e = true
    · rw [if_pos hb] at hl
      rcases hpe : procEntry c (setPre e (some [])) with _ | pe
      · rw [hpe] at hl
        cases hl
      · rw [hpe] at hl
        simp only [Option.bind_eq_bind, Option.some_bind] at hl
        rcases hgo : pipeGo c (some (e.decor.pre.getD [])) [pe] rest with _ | outs
        · rw [hgo] at hl
          cases hl
        · rw [hgo] at hl
          simp only [Option.some_bind] at hl
          cases hl
          have hpk : pe.key = e.key := by
            have h := procEntry_key hpe
            simpa [setPre] using h
          rw [sectionsGo, if_pos hb, List.flatMap_cons, keysOf_append, keysOf_sectionOut_eq, hk,
            ih (some (e.decor.pre.getD [])) [pe] [e] (by simp [keysOf, hpk]) outs hgo]
    · rw [if_neg hb] at hl
      rcases hpe : procEntry c e with _ | pe
      · rw [hpe] at hl
        cases hl
      · rw [hpe] at hl
        simp only [Option.bind_eq_bind, Option.some_bind] at hl
        have hpk : pe.key = e.key := procEntry_key hpe
        rw [sectionsGo, if_neg hb]
        exact ih sp (cur ++ [pe]) (curIn ++ [e])
          (by rw [keysOf_append, keysOf_append, hk]; simp [keysOf, hpk]) l hl

theorem pipeline_keys (c : ProcessedConfig) (es : List (Entry Item)) :
    ∀ l, pipeline c es = some l →
      keysOf l = (sections es).flatMap fun sec => sortBy (keyCmp c.keys) (keysOf sec) := by
  cases es with
  | nil =>
    intro l hl
    cases hl
    rfl
  | cons e rest =>
    intro l hl
    rw [sections]
    rcases hq : e.decor.pre with _ | q
    · rw [pipeline_cons_plain c rest (Or.inl hq)] at hl
      rcases hpe : procEntry c e with _ | pe
      · rw [hpe] at hl
        cases hl
      · rw [hpe] at hl
        simp only [Option.bind_eq_bind, Option.some_bind] at hl
        exact pipeGo_keys c rest none [pe] [e] (by simp [keysOf, procEntry_key hpe]) l hl
    · by_cases hqe : q.isEmpty = true
      · rw [pipeline_cons_plain c rest (Or.inr (by rw [hq, List.isEmpty_iff.mp hqe]))] at hl
        rcases hpe : procEntry c e with _ | pe
        · rw [hpe] at hl
          cases hl
        · rw [hpe] at hl
          simp only [Option.bind_eq_bind, Option.some_bind] at hl
          exact pipeGo_keys c rest none [pe] [e] (by simp [keysOf, procEntry_key hpe]) l hl
      · have hqe' : q.isEmpty = false := by
          revert hqe
          cases q.isEmpty <;> simp
        rw [pipeline_cons_first c rest hq hqe'] at hl
        rcases hpe : procEntry c (setPre e (some [])) with _ | pe
        · rw [hpe] at hl
          cases hl
        · rw [hpe] at hl
          simp only [Option.bind_eq_bind, Option.some_bind] at hl
          have hpk : pe.key = e.key := by
            have h := procEntry_key hpe
            simpa [setPre] using h
          exact pipeGo_keys c rest (some q) [pe] [e] (by simp [keysOf, hpk]) l hl

/-- C2: `format_table` never reorders entries across a section boundary (a later
entry whose key prefix starts with a newline): the output keys are exactly the
input's sections in original order, each section's keys sorted within itself by
the table comparator — so every entry stays inside its original
blank-line-delimited section and only intra-section order may change. -/
theorem claim_c2_section_isolation (c : ProcessedConfig) (t t' : TTable)
    (hnd : (keysOf t.entries).Nodup) (h : format_table c t = some t') :
    keysOf t'.entries
      = (sections t.entries).flatMap (fun sec => sortBy (keyCmp c.keys) (keysOf sec))
    ∧ ∀ sec ∈ sections t.entries,
        List.Perm (sortBy (keyCmp c.keys) (keysOf sec)) (keysOf sec) := by
  constructor
  · rw [format_table_eq_pipeline c t hnd] at h
    rcases hp : pipeline c t.entries with _ | es
    · rw [hp] at h
      cases h
    · rw [hp] at h
      simp only [Option.map_some'] at h
      cases h
      simpa [TTable.entries] using pipeline_keys c t.entries es hp
  · intro sec _
    exact sortBy_perm _ _

/-- The two-section example table for C2: keys `b, a` then a blank line and
keys `d, c`. -/
def tC2 : TTable :=
  .mk [⟨"b".data, .none, ⟨some [], some []⟩⟩,
       ⟨"a".data, .none, ⟨some [], some []⟩⟩,
       ⟨"d".data, .none, ⟨some ['\n'], some []⟩⟩,
       ⟨"c".data, .none, ⟨some [], some []⟩⟩] ⟨none, none⟩ false

/-- The formatted form of `tC2`: `a, b` then `c, d`, the blank line moved onto
`c`, the first key of the second section. -/
def tC2out : TTable :=
  .mk [⟨"a".data, .none, ⟨some [], some []⟩⟩,
       ⟨"b".data, .none, ⟨some [], some []⟩⟩,
       ⟨"c".data, .none, ⟨some ['\n'], some []⟩⟩,
       ⟨"d".data, .none, ⟨some [], some []⟩⟩] ⟨some [], some []⟩ true

/-- Witness for C2 on the concrete two-section table. -/
theorem claim_c2_section_isolation_witness :
    keysOf tC2out.entries
      = (sections tC2.entries).flatMap (fun sec => sortBy (keyCmp cfgPlain.keys) (keysOf sec))
    ∧ ∀ sec ∈ sections tC2.entries,
        List.Perm (sortBy (keyCmp cfgPlain.keys) (keysOf sec)) (keysOf sec) :=
  claim_c2_section_isolation cfgPlain tC2 tC2out (by decide)
    (by simp +decide [format_table, scanEntries, formatItem, keyDecorLookup, flushSection,
      emitSorted, insertEntry, sortBy, List.insertionSort, List.orderedInsert, trimEndNewlines,
      Decor.default, TTable.entries, TTable.decor, List.find?, tC2, tC2out, cfgPlain, cmpLe,
      entryCmp, keyCmp, cmpStr, cmpChar, cmpNat, startsWith, isBoundary])

end TomlSort

namespace TomlSort

/-! ## Claim C3: the table comparator -/

/-- The configuration holding the table-priority list `["b", "a"]`. -/
def cfgBA : ProcessedConfig := ⟨ranksOfList ["b".data, "a".data], fun _ => none, false⟩

/-- The single-section table with keys `z, a, b` for C3. -/
def tC3 : TTable :=
  .mk [⟨"z".data, .none, ⟨some [], some []⟩⟩,
       ⟨"a".data, .none, ⟨some [], some []⟩⟩,
       ⟨"b".data, .none, ⟨some [], some []⟩⟩] ⟨none, none⟩ false

/-- C3: within a section `format_table` sorts by the comparator in which a
priority key precedes every non-priority key, two priority keys are ordered by
ascending configured rank, and two non-priority keys by raw lexicographic key
comparison; with table-priority list `["b", "a"]` and single-section keys
`{z, a, b}` the output order is `b, a, z`. -/
theorem claim_c3_comparator :
    (∀ (rank : Str → Option Nat) (x y : Entry Item) (i : Nat),
        rank x.key = some i → rank y.key = none → entryCmp rank x y = .lt)
  ∧ (∀ (rank : Str → Option Nat) (x y : Entry Item) (j : Nat),
        rank x.key = none → rank y.key = some j → entryCmp rank x y = .gt)
  ∧ (∀ (rank : Str → Option Nat) (x y : Entry Item) (i j : Nat),
        rank x.key = some i → rank y.key = some j → entryCmp rank x y = cmpNat i j)
  ∧ (∀ (rank : Str → Option Nat) (x y : Entry Item),
        rank x.key = none → rank y.key = none → entryCmp rank x y = cmpStr x.key y.key)
  ∧ ((format_table cfgBA tC3).map fun t => keysOf t.entries)
        = some ["b".data, "a".data, "z".data] := by
  refine ⟨?_, ?_, ?_, ?_, ?_⟩
  · intro rank x y i hx hy
    simp [entryCmp, hx, hy]
  · intro rank x y j hx hy
    simp [entryCmp, hx, hy]
  · intro rank x y i j hx hy
    simp [entryCmp, hx, hy]
  · intro rank x y hx hy
    simp [entryCmp, hx, hy]
  · simp +decide [format_table, scanEntries, formatItem, keyDecorLookup, flushSection,
      emitSorted, insertEntry, sortBy, List.insertionSort, List.orderedInsert, trimEndNewlines,
      Decor.default, TTable.entries, TTable.decor, List.find?, tC3, cfgBA, cmpLe, entryCmp,
      keyCmp, cmpStr, cmpChar, cmpNat, ranksOfList, List.enum, keysOf]

/-- Witness for the conditional parts of C3 at the configured rank map. -/
theorem claim_c3_comparator_witness :
    entryCmp (ranksOfList ["b".data, "a".data])
        (⟨"a".data, Item.none, Decor.default⟩ : Entry Item)
        (⟨"z".data, Item.none, Decor.default⟩ : Entry Item) = .lt
  ∧ entryCmp (ranksOfList ["b".data, "a".data])
        (⟨"b".data, Item.none, Decor.default⟩ : Entry Item)
        (⟨"a".data, Item.none, Decor.default⟩ : Entry Item) = cmpNat 0 1 :=
  ⟨claim_c3_comparator.1 (ranksOfList ["b".data, "a".data]) _ _ 1 (by decide) (by decide),
   claim_c3_comparator.2.2.1 (ranksOfList ["b".data, "a".data]) _ _ 0 1 (by decide) (by decide)⟩

/-! ## Claim C4: quote normalization -/

theorem TValue.decor_setDecor (v : TValue) (d : Decor) : (v.setDecor d).decor = d := by
  cases v <;> rfl

theorem TValue.display_strV (s rep : Str) (d : Decor) : (TValue.strV s rep d).display = rep := rfl

theorem TValue.display_other (rep : Str) (d : Decor) : (TValue.other rep d).display = rep := rfl

theorem TValue.decor_strV (s rep : Str) (d : Decor) : (TValue.strV s rep d).decor = d := rfl

theorem TValue.decor_other (rep : Str) (d : Decor) : (TValue.other rep d).decor = d := rfl

theorem TValue.display_setDecor (v : TValue) (d : Decor) : (v.setDecor d).display = v.display := by
  cases v <;> rfl

/-- C4: a scalar string delimited by a single quote is rewritten to double-quote
delimiting exactly when it does not start with a doubled single quote and its
text contains neither a backslash nor a double quote; in every other case the
string text is unchanged.  In particular `'hello'` becomes `"hello"`, a
single-quoted string containing a backslash stays single-quoted, and a string
starting with `''` is untouched. -/
theorem claim_c4_quote_normalization (c : ProcessedConfig) (s rep : Str) (d : Decor)
    (last : Bool) :
    ((format_value c (.strV s rep d) last).map TValue.display)
      = some (if startsWith rep ['\''] = true ∧ startsWith rep ['\'', '\''] = false
                  ∧ hasBackslashOrDquote rep = false
              then '"' :: (stripTrailQuote (stripLeadQuote rep) ++ ['"'])
              else rep)
  ∧ ((format_value c (.strV "hello".data "'hello'".data Decor.default) last).map TValue.display)
      = some "\"hello\"".data
  ∧ ((format_value c (.strV "a\\b".data "'a\\b'".data Decor.default) last).map TValue.display)
      = some "'a\\b'".data
  ∧ ((format_value c (.strV "x".data "''x''".data Decor.default) last).map TValue.display)
      = some "''x''".data := by
  have hgen : ∀ (s rep : Str) (d : Decor),
      ((format_value c (.strV s rep d) last).map TValue.display)
        = some (if startsWith rep ['\''] = true ∧ startsWith rep ['\'', '\''] = false
                    ∧ hasBackslashOrDquote rep = false
                then '"' :: (stripTrailQuote (stripLeadQuote rep) ++ ['"'])
                else rep) := by
    intro s rep d
    have hq : (quoteCond rep = true)
        ↔ (startsWith rep ['\''] = true ∧ startsWith rep ['\'', '\''] = false
            ∧ hasBackslashOrDquote rep = false) := by
      simp [quoteCond, Bool.and_eq_true, Bool.not_eq_true']
      tauto
    rcases hqc : quoteCond rep with _ | _
    · rw [if_neg]
      · simp only [format_value, formatScalar, TValue.display_strV, TValue.decor_strV, hqc,
          Bool.false_eq_true, if_false, TValue.decorated]
        cases last <;>
          simp [Option.map_some', TValue.display_setDecor, TValue.display_strV]
      · intro hcontra
        rw [← hq] at hcontra
        rw [hqc] at hcontra
        cases hcontra
    · rw [if_pos (hq.mp hqc)]
      simp only [format_value, formatScalar, TValue.display_strV, TValue.decor_strV, hqc,
        if_true, TValue.decorated]
      cases last <;>
        simp [Option.map_some', TValue.display_setDecor, TValue.display_strV]
  refine ⟨hgen s rep d, ?_, ?_, ?_⟩
  · rw [hgen]
    simp +decide [startsWith, hasBackslashOrDquote, stripLeadQuote, stripTrailQuote]
  · rw [hgen]
    simp +decide [startsWith, hasBackslashOrDquote]
  · rw [hgen]
    simp +decide [startsWith, hasBackslashOrDquote]

/-! ## Claim C7: scalar spacing -/

/-- C7: a formatted scalar's decor carries the trimmed original prefix re-wrapped
with one leading space when non-empty, followed by exactly one space directly
before the value; after the value comes the trimmed original suffix re-wrapped
with one leading space when non-empty, and exactly one trailing space exactly
when `last` is set. -/
theorem claim_c7_scalar_spacing (c : ProcessedConfig) (s rep : Str) (d : Decor) (last : Bool) :
    ((format_value c (.strV s rep d) last).map TValue.decor)
      = some ⟨some ((if ((d.pre.map rustTrim).getD []).isEmpty then []
                     else ' ' :: (d.pre.map rustTrim).getD []) ++ [' ']),
              some ((if ((d.suf.map rustTrim).getD []).isEmpty then []
                     else ' ' :: (d.suf.map rustTrim).getD [])
                    ++ (if last then [' '] else []))⟩
  ∧ ((format_value c (.other rep d) last).map TValue.decor)
      = some ⟨some ((if ((d.pre.map rustTrim).getD []).isEmpty then []
                     else ' ' :: (d.pre.map rustTrim).getD []) ++ [' ']),
              some ((if ((d.suf.map rustTrim).getD []).isEmpty then []
                     else ' ' :: (d.suf.map rustTrim).getD [])
                    ++ (if last then [' '] else []))⟩ := by
  constructor
  · simp only [format_value, formatScalar, TValue.decorated, TValue.decor_strV,
      TValue.display_strV]
    cases last <;>
      (simp [TValue.decor_setDecor]; try (constructor <;> (split <;> simp_all)))
  · simp only [format_value, formatScalar, TValue.decorated, TValue.decor_other,
      TValue.display_other]
    cases last <;>
      (simp [TValue.decor_setDecor]; try (constructor <;> (split <;> simp_all)))

end TomlSort

namespace TomlSort

/-! ## Claim C5: string-array partition sort -/

/-- Is a value a string scalar? -/
def isStrVal : TValue → Bool
  | .strV _ _ _ => true
  | _ => false

theorem arrayElemCmp_nonstr_str {a x : TValue} (ha : isStrVal a = false)
    (hx : isStrVal x = true) : arrayElemCmp a x = .gt := by
  cases a <;> cases x <;> simp [isStrVal] at ha hx ⊢ <;> rfl

theorem arrayElemCmp_str_nonstr {a y : TValue} (ha : isStrVal a = true)
    (hy : isStrVal y = false) : arrayElemCmp a y = .lt := by
  cases a <;> cases y <;> simp [isStrVal] at ha hy ⊢ <;> rfl

theorem arrayElemCmp_nonstr_nonstr {a y : TValue} (ha : isStrVal a = false)
    (hy : isStrVal y = false) : arrayElemCmp a y = .eq := by
  cases a <;> cases y <;> simp [isStrVal] at ha hy ⊢ <;> rfl

theorem orderedInsert_append_right (r : α → α → Prop) [DecidableRel r] (a : α) :
    ∀ (ss ns : List α), (∀ y ∈ ns, r a y) →
      List.orderedInsert r a (ss ++ ns) = List.orderedInsert r a ss ++ ns := by
  intro ss
  induction ss with
  | nil =>
    intro ns h
    cases ns with
    | nil => rfl
    | cons y t => simp [List.orderedInsert, h y (by simp)]
  | cons x ss ih =>
    intro ns h
    simp only [List.cons_append, List.orderedInsert, List.append_eq]
    split
    · simp
    · rw [ih ns h]
      simp

theorem orderedInsert_append_mid (r : α → α → Prop) [DecidableRel r] (a : α) :
    ∀ (ss ns : List α), (∀ x ∈ ss, ¬ r a x) → (∀ y ∈ ns, r a y) →
      List.orderedInsert r a (ss ++ ns) = ss ++ a :: ns := by
  intro ss
  induction ss with
  | nil =>
    intro ns _ h
    cases ns with
    | nil => rfl
    | cons y t => simp [List.orderedInsert, h y (by simp)]
  | cons x ss ih =>
    intro ns hss hns
    simp only [List.cons_append, List.orderedInsert, List.append_eq]
    rw [if_neg (hss x (by simp)), ih ns (fun z hz => hss z (by simp [hz])) hns]

theorem sortBy_arr_partition : ∀ values : List TValue,
    sortBy arrayElemCmp values
      = sortBy arrayElemCmp (values.filter isStrVal)
        ++ values.filter (fun v => !isStrVal v) := by
  intro values
  induction values with
  | nil => rfl
  | cons a l ih =>
    have hmem_str : ∀ x ∈ sortBy arrayElemCmp (l.filter isStrVal), isStrVal x = true := by
      intro x hx
      have hx' : x ∈ l.filter isStrVal := (sortBy_perm _ _).mem_iff.mp hx
      exact (List.mem_filter.mp hx').2
    have hmem_ns : ∀ y ∈ l.filter (fun v => !isStrVal v), isStrVal y = false := by
      intro y hy
      have h := (List.mem_filter.mp hy).2
      revert h
      cases isStrVal y <;> simp
    rcases ha : isStrVal a with _ | _
    · show List.orderedInsert _ a (sortBy arrayElemCmp l) = _
      rw [ih, List.filter_cons, List.filter_cons, ha]
      simp only [Bool.false_eq_true, if_false, Bool.not_false, if_true]
      rw [orderedInsert_append_mid _ a _ _
        (fun x hx h => by
          have := arrayElemCmp_nonstr_str ha (hmem_str x hx)
          exact h this)
        (fun y hy => by
          have := arrayElemCmp_nonstr_nonstr ha (hmem_ns y hy)
          simp [cmpLe, this])]
    · show List.orderedInsert _ a (sortBy arrayElemCmp l) = _
      rw [ih, List.filter_cons, List.filter_cons, ha]
      simp only [if_true, Bool.not_true, Bool.false_eq_true, if_false]
      rw [orderedInsert_append_right _ a _ _
        (fun y hy => by
          have := arrayElemCmp_str_nonstr ha (hmem_ns y hy)
          simp [cmpLe, this])]
      rfl

/-- The configuration that enables string-array sorting. -/
def cfgSortArr : ProcessedConfig := ⟨fun _ => none, fun _ => none, true⟩

/-- The example array `["banana", 3, "apple", true]`. -/
def exC5 : List TValue :=
  [.strV "banana".data "\"banana\"".data Decor.default,
   .other "3".data Decor.default,
   .strV "apple".data "\"apple\"".data Decor.default,
   .other "true".data Decor.default]

/-- The array elements of a value. -/
def TValue.arrVals : TValue → List TValue
  | .arr vs _ _ _ => vs
  | _ => []

/-- C5: with string-array sorting enabled, `format_array` performs a stable
partition: string elements first, ascending by content (string-to-string
comparison is content comparison), then the non-string elements in original
relative order; `["banana", 3, "apple", true]` becomes
`["apple", "banana", 3, true]`.  With the option disabled the element order is
unchanged. -/
theorem claim_c5_string_array_partition (c : ProcessedConfig) (values : List TValue)
    (trailing : Str) (last : Bool) :
    (sortBy arrayElemCmp values
        = sortBy arrayElemCmp (values.filter isStrVal)
          ++ values.filter (fun v => !isStrVal v))
  ∧ List.Sorted (cmpLe arrayElemCmp) (sortBy arrayElemCmp (values.filter isStrVal))
  ∧ (∀ (sx rx sy ry : Str) (dx dy : Decor),
        arrayElemCmp (.strV sx rx dx) (.strV sy ry dy) = cmpStr sx sy)
  ∧ (c.sortStringArrays = true → startsWith trailing ['\n'] = false →
      format_array c values trailing last
        = (formatInline c
            (sortBy arrayElemCmp (values.filter isStrVal)
              ++ values.filter (fun v => !isStrVal v)).length 0
            (sortBy arrayElemCmp (values.filter isStrVal)
              ++ values.filter (fun v => !isStrVal v))).map
            fun vals => .arr vals [] false ⟨some [' '], some (if last then [' '] else [])⟩)
  ∧ (c.sortStringArrays = false → startsWith trailing ['\n'] = false →
      format_array c values trailing last
        = (formatInline c values.length 0 values).map
            fun vals => .arr vals [] false ⟨some [' '], some (if last then [' '] else [])⟩)
  ∧ ((format_value cfgSortArr (.arr exC5 [] false Decor.default) false).map
        fun v => v.arrVals.map TValue.display)
      = some ["\"apple\"".data, "\"banana\"".data, "3".data, "true".data] := by
  refine ⟨sortBy_arr_partition values, sortBy_sorted arrayElemCmp_oriented arrayElemCmp_trans _,
    fun sx rx sy ry dx dy => rfl, ?_, ?_, ?_⟩
  · intro hsort hin
    rw [format_array]
    simp only [hsort, if_true, hin, Bool.false_eq_true, if_false, sortBy_arr_partition values]
    rcases hfi : formatInline c
        (sortBy arrayElemCmp (values.filter isStrVal)
          ++ values.filter (fun v => !isStrVal v)).length 0
        (sortBy arrayElemCmp (values.filter isStrVal)
          ++ values.filter (fun v => !isStrVal v)) with _ | vals
    · simp [hfi]
    · simp [hfi]
  · intro hsort hin
    rw [format_array]
    simp only [hsort, Bool.false_eq_true, if_false, hin]
    rcases hfi : formatInline c values.length 0 values with _ | vals
    · simp [hfi]
    · simp [hfi]
  · simp +decide [format_value, format_array, formatInline, formatScalar, exC5, cfgSortArr,
      sortBy, List.insertionSort, List.orderedInsert, cmpLe, arrayElemCmp, cmpStr, cmpChar,
      cmpNat, startsWith, Decor.default, TValue.display, TValue.arrVals, TValue.decorated,
      TValue.setDecor, quoteCond, hasBackslashOrDquote, rustTrim, TValue.decor]

end TomlSort

namespace TomlSort

/-- Witness for the conditional parts of C5 at concrete inputs. -/
theorem claim_c5_string_array_partition_witness :
    (format_array cfgSortArr [] [] false
      = (formatInline cfgSortArr ([] : List TValue).length 0 []).map
          (fun vals => .arr vals [] false ⟨some [' '], some []⟩))
  ∧ (format_array cfgPlain [] [] false
      = (formatInline cfgPlain ([] : List TValue).length 0 []).map
          (fun vals => .arr vals [] false ⟨some [' '], some []⟩)) :=
  ⟨(claim_c5_string_array_partition cfgSortArr [] [] false).2.2.2.1 rfl rfl,
   (claim_c5_string_array_partition cfgPlain [] [] false).2.2.2.2.1 rfl rfl⟩

/-! ## Claim C6: array layout decision -/

/-- C6: an array is laid out multi-line exactly when its trailing trivia starts
with a newline; the multi-line branch keeps the trailing trivia verbatim and
forces the trailing comma, while the inline branch clears the trailing trivia
and the trailing comma and formats every element with `last = false` except the
final one, which gets `last = true`. -/
theorem claim_c6_array_layout (c : ProcessedConfig) (values : List TValue) (trailing : Str)
    (tc : Bool) (d : Decor) (last : Bool) :
    (startsWith trailing ['\n'] = true →
      format_value c (.arr values trailing tc d) last
        = (formatMulti c (if c.sortStringArrays then sortBy arrayElemCmp values else values)).map
            fun vals => .arr vals trailing true ⟨some [' '], some (if last then [' '] else [])⟩)
  ∧ (startsWith trailing ['\n'] = false →
      format_value c (.arr values trailing tc d) last
        = (formatInline c
            (if c.sortStringArrays then sortBy arrayElemCmp values else values).length 0
            (if c.sortStringArrays then sortBy arrayElemCmp values else values)).map
            fun vals => .arr vals [] false ⟨some [' '], some (if last then [' '] else [])⟩)
  ∧ (∀ len i, formatInline c len i [] = some [])
  ∧ (∀ len i (v : TValue) (rest : List TValue), formatInline c len i (v :: rest)
        = (format_value c v (i + 1 == len)).bind fun fv =>
            (formatInline c len (i + 1) rest).map fun rest' => fv :: rest') := by
  refine ⟨?_, ?_, ?_, ?_⟩
  · intro hml
    rw [format_value, format_array]
    simp only [hml, if_true]
    rcases hfm : formatMulti c (if c.sortStringArrays = true then sortBy arrayElemCmp values
        else values) with _ | vals
    · simp [hfm]
    · simp [hfm]
  · intro hin
    rw [format_value, format_array]
    simp only [hin, Bool.false_eq_true, if_false]
    rcases hfi : formatInline c
        (if c.sortStringArrays = true then sortBy arrayElemCmp values else values).length 0
        (if c.sortStringArrays = true then sortBy arrayElemCmp values else values) with _ | vals
    · simp [hfi]
    · simp [hfi]
  · intro len i
    rw [formatInline]
    rfl
  · intro len i v rest
    rw [formatInline]
    rcases hfv : format_value c v (i + 1 == len) with _ | fv
    · simp [hfv]
    · rcases hrest : formatInline c len (i + 1) rest with _ | rest'
      · simp [hfv, hrest]
      · simp [hfv, hrest]

/-- Witness for the conditional parts of C6 at concrete inputs. -/
theorem claim_c6_array_layout_witness :
    (format_value cfgPlain (.arr [] ['\n'] false Decor.default) false
      = (formatMulti cfgPlain []).map
          (fun vals => .arr vals ['\n'] true ⟨some [' '], some []⟩))
  ∧ (format_value cfgPlain (.arr [] [] false Decor.default) false
      = (formatInline cfgPlain ([] : List TValue).length 0 []).map
          (fun vals => .arr vals [] false ⟨some [' '], some []⟩)) :=
  ⟨(claim_c6_array_layout cfgPlain [] ['\n'] false Decor.default false).1 rfl,
   (claim_c6_array_layout cfgPlain [] [] false Decor.default false).2.1 rfl⟩

end TomlSort

namespace TomlSort

/-! ## Claim C8: inline-table formatting -/

theorem keysOf_scanInlineEntries (es : List (Entry TValue)) :
    keysOf (scanInlineEntries es) = keysOf es := by
  simp [keysOf, scanInlineEntries]

theorem formatEntries_isSome (c : ProcessedConfig) (len : Nat) :
    ∀ (l : List (Entry TValue)) (i : Nat), (formatEntries c len i l).isSome = true := by
  intro l
  induction l with
  | nil => intro i; simp [formatEntries]
  | cons e rest ih =>
    intro i
    rcases Option.isSome_iff_exists.mp (format_value_isSome c e.value (i + 1 == len)) with ⟨fv, hfv⟩
    rcases Option.isSome_iff_exists.mp (ih (i + 1)) with ⟨rest', hrest⟩
    simp [formatEntries, hfv, hrest]

/-- The inline value-formatting loop touches only values: keys and (already
normalized) key decors pass through unchanged, in order. -/
theorem formatEntries_keyDecor (c : ProcessedConfig) (len : Nat) :
    ∀ (l : List (Entry TValue)) (i : Nat) (l' : List (Entry TValue)),
      formatEntries c len i l = some l' →
      l'.map (fun e => (e.key, e.decor)) = l.map fun e => (e.key, e.decor) := by
  intro l
  induction l with
  | nil =>
    intro i l' h
    rw [formatEntries] at h
    cases h
    rfl
  | cons e rest ih =>
    intro i l' h
    rw [formatEntries] at h
    rcases hfv : format_value c e.value (i + 1 == len) with _ | fv
    · rw [hfv] at h
      simp at h
    · rw [hfv] at h
      rcases hrest : formatEntries c len (i + 1) rest with _ | rest'
      · rw [hrest] at h
        simp at h
      · rw [hrest] at h
        simp only [Option.bind_eq_bind, Option.some_bind, Option.map_some', Option.pure_def,
          Option.some.injEq] at h
        subst h
        simp [ih (i + 1) rest' hrest]

/-- Folding `insertEntry` over entries with fresh keys is plain append. -/
theorem foldl_insertEntry (l : List (Entry α)) :
    ∀ acc : List (Entry α), (keysOf (acc ++ l)).Nodup → l.foldl insertEntry acc = acc ++ l := by
  induction l with
  | nil => intro acc _; simp
  | cons e rest ih =>
    intro acc hnd
    have hnd' : (keysOf acc ++ keysOf (e :: rest)).Nodup := by
      rw [← keysOf_append]; exact hnd
    have hfresh : e.key ∉ keysOf acc := by
      intro hmem
      exact (List.nodup_append.mp hnd').2.2 hmem (by simp [keysOf])
    have hnd'' : (keysOf ((acc ++ [e]) ++ rest)).Nodup := by
      rw [List.append_assoc, List.singleton_append]; exact hnd
    rw [List.foldl_cons, insertEntry_append hfresh, ih (acc ++ [e]) hnd'']
    simp

/-- C8: on an inline table with distinct keys (the index-map invariant of
`toml_edit`), formatting returns an inline table that is one single sorted
section: its keys are exactly the input's keys sorted with the inline priority
comparator (priority keys first by rank, then non-priority keys
lexicographically), and every key's decor is exactly one leading and one
trailing space. The outer decor gets a trailing space iff `last`. -/
theorem claim_c8_inline_table (c : ProcessedConfig) (entries : List (Entry TValue)) (last : Bool)
    (hnd : (keysOf entries).Nodup) :
    ∃ E, format_inline_table c entries last
        = some (.inlineTab E ⟨none, if last then some [' '] else none⟩)
      ∧ keysOf E = sortBy (keyCmp c.inlineKeys) (keysOf entries)
      ∧ List.Sorted (cmpLe (keyCmp c.inlineKeys)) (keysOf E)
      ∧ ∀ e ∈ E, e.decor = ⟨some [' '], some [' ']⟩ := by
  rcases Option.isSome_iff_exists.mp (checkInlineDecors_isSome entries) with ⟨ds, hds⟩
  rcases Option.isSome_iff_exists.mp
      (formatEntries_isSome c (sortBy (entryCmp c.inlineKeys) (scanInlineEntries entries)).length
        (sortBy (entryCmp c.inlineKeys) (scanInlineEntries entries)) 0) with ⟨E, hE⟩
  have hkd := formatEntries_keyDecor c
      (sortBy (entryCmp c.inlineKeys) (scanInlineEntries entries)).length
      (sortBy (entryCmp c.inlineKeys) (scanInlineEntries entries)) 0 E hE
  have hkeys : keysOf E = sortBy (keyCmp c.inlineKeys) (keysOf entries) := by
    have h1 : keysOf E = keysOf (sortBy (entryCmp c.inlineKeys) (scanInlineEntries entries)) := by
      have h := congrArg (List.map Prod.fst) hkd
      simpa [keysOf, List.map_map, Function.comp] using h
    have h2 : keysOf (sortBy (entryCmp c.inlineKeys) (scanInlineEntries entries))
        = sortBy (keyCmp c.inlineKeys) (keysOf (scanInlineEntries entries)) :=
      sortBy_entry_map_key c.inlineKeys (scanInlineEntries entries)
    rw [h1, h2, keysOf_scanInlineEntries]
  have hndE : (keysOf E).Nodup := by
    rw [hkeys]
    exact ((sortBy_perm (keyCmp c.inlineKeys) (keysOf entries)).nodup_iff).mpr hnd
  have hfold : E.foldl insertEntry [] = E := by
    have h := foldl_insertEntry E [] (by simpa using hndE)
    simpa using h
  have hdec : ∀ e ∈ E, e.decor = ⟨some [' '], some [' ']⟩ := by
    intro e he
    have hmem : (e.key, e.decor) ∈ (sortBy (entryCmp c.inlineKeys)
        (scanInlineEntries entries)).map fun e => (e.key, e.decor) := by
      rw [← hkd]
      exact List.mem_map_of_mem _ he
    rcases List.mem_map.mp hmem with ⟨x, hx, hxe⟩
    have hx' : x ∈ scanInlineEntries entries :=
      (sortBy_perm _ _).mem_iff.mp hx
    have hxd : x.decor = ⟨some [' '], some [' ']⟩ := by
      simp only [scanInlineEntries, List.mem_map] at hx'
      rcases hx' with ⟨y, _, rfl⟩
      rfl
    exact (congrArg Prod.snd hxe).symm.trans hxd
  refine ⟨E, ?_, hkeys, ?_, hdec⟩
  · simp [format_inline_table, hds, hE, hfold]
  · rw [hkeys]
    exact sortBy_sorted (keyCmp_oriented _) (keyCmp_trans _) _

/-- Witness for C8 at a concrete two-entry inline table. -/
theorem claim_c8_inline_table_witness :
    ∃ E, format_inline_table cfgPlain
          [⟨"b".data, .other "1".data Decor.default, Decor.default⟩,
           ⟨"a".data, .other "2".data Decor.default, Decor.default⟩] false
        = some (.inlineTab E ⟨none, if false then some [' '] else none⟩)
      ∧ keysOf E = sortBy (keyCmp cfgPlain.inlineKeys)
          (keysOf ([⟨"b".data, .other "1".data Decor.default, Decor.default⟩,
                    ⟨"a".data, .other "2".data Decor.default, Decor.default⟩]
            : List (Entry TValue)))
      ∧ List.Sorted (cmpLe (keyCmp cfgPlain.inlineKeys)) (keysOf E)
      ∧ ∀ e ∈ E, e.decor = ⟨some [' '], some [' ']⟩ :=
  claim_c8_inline_table cfgPlain
    [⟨"b".data, .other "1".data Decor.default, Decor.default⟩,
     ⟨"a".data, .other "2".data Decor.default, Decor.default⟩] false (by decide)

end TomlSort

namespace TomlSort

/-! ## Towards C1: idempotence of the trimming helpers -/

theorem dropWhile_head_false (p : Char → Bool) :
    ∀ (l : Str) (c : Char), (l.dropWhile p).head? = some c → p c = false := by
  intro l
  induction l with
  | nil => intro c h; cases h
  | cons a l ih =>
    intro c h
    rw [List.dropWhile_cons] at h
    by_cases hp : p a = true
    · rw [if_pos hp] at h
      exact ih c h
    · have hp' : p a = false := by revert hp; cases p a <;> simp
      rw [if_neg (by simp [hp'])] at h
      cases h
      exact hp'

theorem dropWhile_eq_self_of_head (p : Char → Bool) (l : Str)
    (h : ∀ c, l.head? = some c → p c = false) : l.dropWhile p = l := by
  cases l with
  | nil => rfl
  | cons a l => simp [List.dropWhile_cons, h a rfl]

theorem dropWhile_append_all (p : Char → Bool) :
    ∀ (front y : Str), (∀ c ∈ front, p c = true) →
      (front ++ y).dropWhile p = y.dropWhile p := by
  intro front
  induction front with
  | nil => intro y _; rfl
  | cons a fr ih =>
    intro y h
    rw [List.cons_append, List.dropWhile_cons, if_pos (h a (by simp))]
    exact ih y fun c hc => h c (by simp [hc])

theorem head?_of_pre {u v : Str} (h : u <+: v) {c : Char} (hc : u.head? = some c) :
    v.head? = some c := by
  rcases h with ⟨t, rfl⟩
  cases u with
  | nil => cases hc
  | cons a u => cases hc; rfl

/-- The two-sided trim pattern shared by `rustTrim` and `trimSTN`. -/
def trimB (p : Char → Bool) (s : Str) : Str :=
  ((s.dropWhile p).reverse.dropWhile p).reverse

theorem rustTrim_eq_trimB (s : Str) : rustTrim s = trimB Char.isWhitespace s := rfl

theorem trimSTN_eq_trimB (s : Str) : trimSTN s = trimB isSTN s := rfl

theorem trimB_isPre (p : Char → Bool) (s : Str) : trimB p s <+: s.dropWhile p := by
  have h : (s.dropWhile p).reverse.dropWhile p <:+ (s.dropWhile p).reverse :=
    List.dropWhile_suffix p
  have h2 : ((s.dropWhile p).reverse.dropWhile p).reverse <+: (s.dropWhile p).reverse.reverse :=
    List.reverse_prefix.mpr h
  rw [List.reverse_reverse] at h2
  exact h2

theorem trimB_head_false (p : Char → Bool) (s : Str) {c : Char}
    (hc : (trimB p s).head? = some c) : p c = false :=
  dropWhile_head_false p _ c (head?_of_pre (trimB_isPre p s) hc)

theorem trimB_reverse_head_false (p : Char → Bool) (s : Str) {c : Char}
    (hc : (trimB p s).reverse.head? = some c) : p c = false := by
  rw [trimB, List.reverse_reverse] at hc
  exact dropWhile_head_false p _ c hc

theorem trimB_idem (p : Char → Bool) (s : Str) : trimB p (trimB p s) = trimB p s := by
  show (((trimB p s).dropWhile p).reverse.dropWhile p).reverse = trimB p s
  rw [dropWhile_eq_self_of_head p _ (fun c hc => trimB_head_false p s hc),
    dropWhile_eq_self_of_head p _ (fun c hc => trimB_reverse_head_false p s hc),
    List.reverse_reverse]

theorem trimB_pad (p : Char → Bool) (s : Str) (front back : Str)
    (hf : ∀ c ∈ front, p c = true) (hb : ∀ c ∈ back, p c = true)
    (hne : trimB p s ≠ []) :
    trimB p (front ++ (trimB p s ++ back)) = trimB p s := by
  have h1 : (front ++ (trimB p s ++ back)).dropWhile p = trimB p s ++ back := by
    rw [dropWhile_append_all p front _ hf]
    rcases ht : trimB p s with _ | ⟨c, t'⟩
    · exact absurd ht hne
    · have hc : p c = false := trimB_head_false p s (by rw [ht]; rfl)
      rw [List.cons_append, List.dropWhile_cons, if_neg (by simp [hc])]
  show (((front ++ (trimB p s ++ back)).dropWhile p).reverse.dropWhile p).reverse = trimB p s
  rw [h1, List.reverse_append,
    dropWhile_append_all p back.reverse _ (fun c hc => hb c (List.mem_reverse.mp hc)),
    dropWhile_eq_self_of_head p _ (fun c hc => trimB_reverse_head_false p s hc),
    List.reverse_reverse]

theorem rustTrim_idem (s : Str) : rustTrim (rustTrim s) = rustTrim s :=
  trimB_idem Char.isWhitespace s

theorem trimSTN_idem (s : Str) : trimSTN (trimSTN s) = trimSTN s :=
  trimB_idem isSTN s

theorem rustTrim_wrap (s : Str) (h : rustTrim s ≠ []) :
    rustTrim (' ' :: (rustTrim s ++ [' '])) = rustTrim s :=
  trimB_pad Char.isWhitespace s [' '] [' '] (by decide) (by decide) h

theorem trimSTN_wrap (s : Str) (h : trimSTN s ≠ []) :
    trimSTN ('\n' :: '\t' :: (trimSTN s ++ ['\n', '\t'])) = trimSTN s :=
  trimB_pad isSTN s ['\n', '\t'] ['\n', '\t'] (by decide) (by decide) h

theorem rustTrim_space : rustTrim [' '] = [] := by decide

theorem trimSTN_nl_tab : trimSTN ['\n', '\t'] = [] := by decide

theorem trimEndNewlines_idem (s : Str) :
    trimEndNewlines (trimEndNewlines s) = trimEndNewlines s := by
  show ((trimEndNewlines s).reverse.dropWhile (· = '\n')).reverse = trimEndNewlines s
  rw [show (trimEndNewlines s).reverse = s.reverse.dropWhile (· = '\n') from by
        rw [trimEndNewlines, List.reverse_reverse],
    dropWhile_eq_self_of_head _ _ (fun c hc => dropWhile_head_false _ _ c hc)]
  rfl

theorem trimSufD_idem (d : Decor) : trimSufD (trimSufD d) = trimSufD d := by
  rcases d with ⟨pre, suf⟩
  cases suf with
  | none => rfl
  | some s => simp [trimSufD, trimEndNewlines_idem]

end TomlSort

namespace TomlSort

/-! ## Towards C1: the scalar formatter is a closure operator -/

theorem TValue.setDecor_setDecor (v : TValue) (A B : Decor) :
    (v.setDecor A).setDecor B = v.setDecor B := by
  cases v <;> rfl

theorem arrKey_setDecor (v : TValue) (D : Decor) : arrKey (v.setDecor D) = arrKey v := by
  cases v <;> rfl

theorem trimB_cons_pos (p : Char → Bool) (a : Char) (x : Str) (ha : p a = true) :
    trimB p (a :: x) = trimB p x := by
  show ((List.dropWhile p (a :: x)).reverse.dropWhile p).reverse = _
  rw [List.dropWhile_cons, if_pos ha]
  rfl

theorem rustTrim_cons_space (x : Str) : rustTrim (' ' :: x) = rustTrim x :=
  trimB_cons_pos Char.isWhitespace ' ' x (by decide)

/-- The prefix/suffix normalization of the scalar branch: trim, then one leading
space when non-empty. -/
def wrapTrim (o : Option Str) : Str :=
  let t := (o.map rustTrim).getD []
  if t.isEmpty then t else ' ' :: t

/-- The quote normalization of the scalar branch. -/
def quoteNorm (v : TValue) : TValue :=
  if quoteCond v.display then
    TValue.strV (stripTrailQuote (stripLeadQuote v.display))
      ('"' :: (stripTrailQuote (stripLeadQuote v.display) ++ ['"'])) Decor.default
  else v

/-- The suffix decor computed by the scalar branch. -/
def sfxWrap (last : Bool) (o : Option Str) : Str :=
  if last then wrapTrim o ++ [' '] else wrapTrim o

theorem formatScalar_eq (v : TValue) (last : Bool) :
    formatScalar v last = (quoteNorm v).setDecor
      ⟨some (wrapTrim v.decor.pre ++ [' ']), some (sfxWrap last v.decor.suf)⟩ := by
  cases last <;> rfl

theorem wrapTrim_some (x : Str) :
    wrapTrim (some x) = if (rustTrim x).isEmpty then rustTrim x else ' ' :: rustTrim x := rfl

theorem wrapTrim_wrap (o : Option Str) :
    wrapTrim (some (wrapTrim o ++ [' '])) = wrapTrim o := by
  have hsp : wrapTrim (some ([' '] : Str)) = [] := by
    rw [wrapTrim_some, rustTrim_space]
    rfl
  rcases o with _ | y
  · show wrapTrim (some ([] ++ [' '])) = []
    rw [List.nil_append]
    exact hsp
  · by_cases hy : rustTrim y = []
    · have h1 : wrapTrim (some y) = [] := by simp [wrapTrim_some, hy]
      rw [h1, List.nil_append]
      exact hsp
    · have h1 : wrapTrim (some y) = ' ' :: rustTrim y := by
        rw [wrapTrim_some, if_neg (by simp [List.isEmpty_iff, hy])]
      rw [h1]
      have h2 : rustTrim (' ' :: (rustTrim y ++ [' '])) = rustTrim y := rustTrim_wrap y hy
      rw [List.cons_append, wrapTrim_some, h2, if_neg (by simp [List.isEmpty_iff, hy])]

theorem wrapTrim_self (o : Option Str) : wrapTrim (some (wrapTrim o)) = wrapTrim o := by
  rcases o with _ | y
  · rfl
  · by_cases hy : rustTrim y = []
    · have h1 : wrapTrim (some y) = [] := by simp [wrapTrim_some, hy]
      rw [h1]
      rfl
    · have h1 : wrapTrim (some y) = ' ' :: rustTrim y := by
        rw [wrapTrim_some, if_neg (by simp [List.isEmpty_iff, hy])]
      rw [h1, wrapTrim_some, rustTrim_cons_space, rustTrim_idem,
        if_neg (by simp [List.isEmpty_iff, hy])]

theorem quoteCond_dquote (x : Str) : quoteCond ('"' :: x) = false := by
  simp [quoteCond, startsWith, List.isPrefixOf]

theorem quoteNorm_of_false {v : TValue} (h : quoteCond v.display = false) : quoteNorm v = v := by
  rw [quoteNorm, h]
  rfl

theorem quoteCond_quoteNorm (v : TValue) : quoteCond (quoteNorm v).display = false := by
  rw [quoteNorm]
  by_cases h : quoteCond v.display = true
  · rw [if_pos h, TValue.display_strV]
    exact quoteCond_dquote _
  · rw [if_neg h]
    revert h
    cases quoteCond v.display <;> simp

theorem sfxWrap_fixed (last : Bool) (o : Option Str) :
    sfxWrap last (some (sfxWrap last o)) = sfxWrap last o := by
  cases last
  · show wrapTrim (some (wrapTrim o)) = wrapTrim o
    exact wrapTrim_self o
  · show wrapTrim (some (wrapTrim o ++ [' '])) ++ [' '] = wrapTrim o ++ [' ']
    rw [wrapTrim_wrap]

theorem formatScalar_fixed (v : TValue) (last : Bool) :
    formatScalar (formatScalar v last) last = formatScalar v last := by
  rw [formatScalar_eq v last, formatScalar_eq]
  have hq : quoteCond ((quoteNorm v).setDecor
      ⟨some (wrapTrim v.decor.pre ++ [' ']), some (sfxWrap last v.decor.suf)⟩).display
      = false := by
    rw [TValue.display_setDecor]
    exact quoteCond_quoteNorm v
  rw [quoteNorm_of_false hq, TValue.decor_setDecor]
  rw [wrapTrim_wrap, sfxWrap_fixed]
  exact TValue.setDecor_setDecor _ _ _

end TomlSort

namespace TomlSort

/-! ## Towards C1: well-formed trees (the conformant-parser invariant) -/

mutual

/-- A value as produced by a conformant parser: a single-quote-convertible
string's content agrees with its quoted text, a non-string scalar's text never
looks single-quoted, inline-table keys are unique; recursively. -/
def TValue.wf (v : TValue) : Bool :=
  match v with
  | .strV content rep _ =>
    !quoteCond rep || (stripTrailQuote (stripLeadQuote rep) == content)
  | .other rep _ => !quoteCond rep
  | .arr values _ _ _ => valuesWf values
  | .inlineTab entries _ => decide ((keysOf entries).Nodup) && entriesWfV entries
termination_by 3 * sizeOf v
decreasing_by
  · simp_wf; omega
  · simp_wf
    rename_i entries d
    have h := valsSize_lt_sizeOf entries
    omega

def valuesWf (l : List TValue) : Bool :=
  match l with
  | [] => true
  | v :: rest => v.wf && valuesWf rest
termination_by 3 * sizeOf l + 1
decreasing_by
  all_goals simp_wf <;> omega

def entriesWfV (l : List (Entry TValue)) : Bool :=
  match l with
  | [] => true
  | e :: rest => e.value.wf && entriesWfV rest
termination_by 3 * valsSize l + 2
decreasing_by
  all_goals
    rw [valsSize_cons]
    have h : 0 < sizeOf e.value := by cases e.value <;> simp
    omega

end

mutual

/-- A table item as produced by a conformant parser. -/
def Item.wf (it : Item) : Bool :=
  match it with
  | .none => true
  | .value v => v.wf
  | .table t => t.wf
  | .arrayOfTables _ => true
termination_by 3 * sizeOf it + 1
decreasing_by
  simp_wf; omega

/-- A table as produced by a conformant parser: unique keys, recursively. -/
def TTable.wf (t : TTable) : Bool :=
  decide ((keysOf t.entries).Nodup) && entriesWfI t.entries
termination_by 3 * sizeOf t
decreasing_by
  simp_wf
  cases t with
  | mk es d i =>
    have h := itemsSize_lt_sizeOf es
    simp [TTable.entries]
    omega

def entriesWfI (l : List (Entry Item)) : Bool :=
  match l with
  | [] => true
  | e :: rest => e.value.wf && entriesWfI rest
termination_by 3 * itemsSize l + 2
decreasing_by
  all_goals
    rw [itemsSize_cons]
    have h : 0 < sizeOf e.value := by cases e.value <;> simp
    omega

end

theorem valuesWf_forall (l : List TValue) :
    valuesWf l = true ↔ ∀ v ∈ l, v.wf = true := by
  induction l with
  | nil => simp [valuesWf]
  | cons v rest ih => simp [valuesWf, ih]

theorem entriesWfV_forall (l : List (Entry TValue)) :
    entriesWfV l = true ↔ ∀ e ∈ l, e.value.wf = true := by
  induction l with
  | nil => simp [entriesWfV]
  | cons e rest ih => simp [entriesWfV, ih]

theorem entriesWfI_forall (l : List (Entry Item)) :
    entriesWfI l = true ↔ ∀ e ∈ l, e.value.wf = true := by
  induction l with
  | nil => simp [entriesWfI]
  | cons e rest ih => simp [entriesWfI, ih]

theorem TTable.wf_iff (t : TTable) :
    t.wf = true ↔ (keysOf t.entries).Nodup ∧ ∀ e ∈ t.entries, e.value.wf = true := by
  rw [TTable.wf]
  simp [entriesWfI_forall]

theorem wf_strV (content rep : Str) (d : Decor) :
    (TValue.strV content rep d).wf
      = (!quoteCond rep || (stripTrailQuote (stripLeadQuote rep) == content)) := by
  simp [TValue.wf]

theorem wf_other (rep : Str) (d : Decor) : (TValue.other rep d).wf = !quoteCond rep := by
  simp [TValue.wf]

theorem wf_arr (values : List TValue) (trailing : Str) (tc : Bool) (d : Decor) :
    (TValue.arr values trailing tc d).wf = valuesWf values := by
  simp [TValue.wf]

theorem wf_inlineTab (entries : List (Entry TValue)) (d : Decor) :
    (TValue.inlineTab entries d).wf
      = (decide ((keysOf entries).Nodup) && entriesWfV entries) := by
  simp [TValue.wf]

theorem wf_item_value (v : TValue) : (Item.value v).wf = v.wf := by
  simp [Item.wf]

theorem wf_item_table (t : TTable) : (Item.table t).wf = t.wf := by
  simp [Item.wf]

end TomlSort

namespace TomlSort

/-! ## Towards C1: the formatted value, decor stripped, ignores the input's
top-level decor and the `last` flag -/

theorem format_array_strip (c : ProcessedConfig) (values : List TValue) (trailing : Str)
    (last last' : Bool) :
    (format_array c values trailing last).map (·.setDecor Decor.default)
      = (format_array c values trailing last').map (·.setDecor Decor.default) := by
  rw [format_array, format_array]
  by_cases hs : startsWith trailing ['\n'] = true
  · simp only [hs, if_true]
    rcases h : formatMulti c
        (if c.sortStringArrays = true then sortBy arrayElemCmp values else values) with _ | vals
    · simp [h]
    · simp [h, TValue.setDecor]
  · have hs' : startsWith trailing ['\n'] = false := by
      revert hs
      cases startsWith trailing ['\n'] <;> simp
    simp only [hs', Bool.false_eq_true, if_false]
    rcases h : formatInline c
        (if c.sortStringArrays = true then sortBy arrayElemCmp values else values).length 0
        (if c.sortStringArrays = true then sortBy arrayElemCmp values else values) with _ | vals
    · simp [h]
    · simp [h, TValue.setDecor]

theorem format_inline_table_strip (c : ProcessedConfig) (entries : List (Entry TValue))
    (last last' : Bool) :
    (format_inline_table c entries last).map (·.setDecor Decor.default)
      = (format_inline_table c entries last').map (·.setDecor Decor.default) := by
  rw [format_inline_table, format_inline_table]
  rcases h1 : checkInlineDecors entries with _ | ds
  · simp [h1]
  · rcases h2 : formatEntries c
        (sortBy (entryCmp c.inlineKeys) (scanInlineEntries entries)).length 0
        (sortBy (entryCmp c.inlineKeys) (scanInlineEntries entries)) with _ | fes
    · simp [h1, h2]
    · simp [h1, h2, TValue.setDecor]

theorem format_value_setDecor_strip (c : ProcessedConfig) (v : TValue) (D : Decor)
    (last last' : Bool) :
    (format_value c (v.setDecor D) last).map (·.setDecor Decor.default)
      = (format_value c v last').map (·.setDecor Decor.default) := by
  cases v with
  | arr values trailing tc d =>
    rw [show (TValue.arr values trailing tc d).setDecor D
        = .arr values trailing tc D from rfl, format_value, format_value]
    exact format_array_strip c values trailing last last'
  | inlineTab entries d =>
    rw [show (TValue.inlineTab entries d).setDecor D = .inlineTab entries D from rfl,
      format_value, format_value]
    exact format_inline_table_strip c entries last last'
  | strV s r d =>
    rw [show (TValue.strV s r d).setDecor D = .strV s r D from rfl]
    simp only [format_value, Option.pure_def, Option.map_some']
    rw [formatScalar_eq, formatScalar_eq, TValue.setDecor_setDecor, TValue.setDecor_setDecor,
      quoteNorm, quoteNorm, TValue.display_strV, TValue.display_strV]
    split
    · rfl
    · rfl
  | other r d =>
    rw [show (TValue.other r d).setDecor D = .other r D from rfl]
    simp only [format_value, Option.pure_def, Option.map_some']
    rw [formatScalar_eq, formatScalar_eq, TValue.setDecor_setDecor, TValue.setDecor_setDecor,
      quoteNorm, quoteNorm, TValue.display_other, TValue.display_other]
    split
    · rfl
    · rfl

theorem format_value_decorated_strip (c : ProcessedConfig) (v : TValue) (p s : Str)
    (last last' : Bool) :
    (format_value c (v.decorated p s) last).map (·.setDecor Decor.default)
      = (format_value c v last').map (·.setDecor Decor.default) :=
  format_value_setDecor_strip c v ⟨some p, some s⟩ last last'

end TomlSort

namespace TomlSort

/-! ## Towards C1: sortedness transfer and small fixed-point facts -/

theorem sorted_iff_arrKey (l : List TValue) :
    List.Sorted (cmpLe arrayElemCmp) l ↔ List.Sorted (cmpLe arrKeyCmp) (l.map arrKey) := by
  unfold List.Sorted
  rw [List.pairwise_map]
  constructor
  · refine fun h => h.imp ?_
    intro a b hab
    show arrKeyCmp (arrKey a) (arrKey b) ≠ .gt
    rw [← arrayElemCmp_eq_arrKeyCmp]
    exact hab
  · refine fun h => h.imp ?_
    intro a b hab
    show arrayElemCmp a b ≠ .gt
    rw [arrayElemCmp_eq_arrKeyCmp]
    exact hab

theorem sorted_arrKey_transfer {l₁ l₂ : List TValue} (h : l₂.map arrKey = l₁.map arrKey)
    (hs : List.Sorted (cmpLe arrayElemCmp) l₁) : List.Sorted (cmpLe arrayElemCmp) l₂ := by
  rw [sorted_iff_arrKey, h, ← sorted_iff_arrKey]
  exact hs

theorem sorted_entry_iff_keys (rank : Str → Option Nat) (l : List (Entry α)) :
    List.Sorted (cmpLe fun x y : Entry α => entryCmp rank x y) l
      ↔ List.Sorted (cmpLe (keyCmp rank)) (keysOf l) := by
  unfold List.Sorted
  rw [keysOf, List.pairwise_map]
  constructor
  · refine fun h => h.imp ?_
    intro a b hab
    exact hab
  · refine fun h => h.imp ?_
    intro a b hab
    exact hab

theorem scanInlineEntries_id : ∀ (l : List (Entry TValue)),
    (∀ e ∈ l, e.decor = ⟨some [' '], some [' ']⟩) → scanInlineEntries l = l := by
  intro l
  induction l with
  | nil => intro _; rfl
  | cons e rest ih =>
    intro h
    show { e with decor := ⟨some [' '], some [' ']⟩ } :: scanInlineEntries rest = e :: rest
    rw [ih fun x hx => h x (by simp [hx])]
    rcases e with ⟨k, v, d⟩
    have hd : d = ⟨some [' '], some [' ']⟩ := h ⟨k, v, d⟩ (by simp)
    rw [hd]

theorem setDecor_of_strip_eq {g f : TValue}
    (h : g.setDecor Decor.default = f.setDecor Decor.default) (X : Decor) :
    g.setDecor X = f.setDecor X := by
  have h2 := congrArg (fun v => TValue.setDecor v X) h
  simpa [TValue.setDecor_setDecor] using h2

theorem quoteNorm_of_true {v : TValue} (h : quoteCond v.display = true) :
    quoteNorm v = TValue.strV (stripTrailQuote (stripLeadQuote v.display))
      ('"' :: (stripTrailQuote (stripLeadQuote v.display) ++ ['"'])) Decor.default := by
  rw [quoteNorm, h]
  rfl

theorem quoteCond_nil : quoteCond ([] : Str) = false := by decide

theorem arrKey_formatScalar (v : TValue) (last : Bool) (hwf : v.wf = true) :
    arrKey (formatScalar v last) = arrKey v := by
  rw [formatScalar_eq, arrKey_setDecor]
  by_cases hq : quoteCond v.display = true
  · rw [quoteNorm_of_true hq]
    cases v with
    | strV s r d =>
      rw [wf_strV] at hwf
      have hqr : quoteCond r = true := by rwa [TValue.display_strV] at hq
      rw [hqr] at hwf
      simp only [Bool.not_true, Bool.false_or, beq_iff_eq] at hwf
      simp [arrKey, TValue.display_strV, hwf]
    | other r d =>
      rw [wf_other] at hwf
      have hqr : quoteCond r = true := by rwa [TValue.display_other] at hq
      rw [hqr] at hwf
      simp at hwf
    | arr values trailing tc d =>
      have : quoteCond (TValue.arr values trailing tc d).display = false := quoteCond_nil
      rw [this] at hq
      cases hq
    | inlineTab entries d =>
      have : quoteCond (TValue.inlineTab entries d).display = false := quoteCond_nil
      rw [this] at hq
      cases hq
  · have hq' : quoteCond v.display = false := by
      revert hq
      cases quoteCond v.display <;> simp
    rw [quoteNorm_of_false hq']

theorem format_value_scalar (c : ProcessedConfig) (v : TValue) (last : Bool)
    (h : (∃ s r d, v = .strV s r d) ∨ ∃ r d, v = .other r d) :
    format_value c v last = some (formatScalar v last) := by
  rcases h with ⟨s, r, d, rfl⟩ | ⟨r, d, rfl⟩ <;> simp [format_value]

theorem formatScalar_shape (v : TValue) (last : Bool)
    (h : (∃ s r d, v = .strV s r d) ∨ ∃ r d, v = .other r d) :
    (∃ s r d, formatScalar v last = .strV s r d)
      ∨ ∃ r d, formatScalar v last = .other r d := by
  rw [formatScalar_eq, quoteNorm]
  by_cases hq : quoteCond v.display = true
  · rw [if_pos hq]
    exact Or.inl ⟨_, _, _, rfl⟩
  · rw [if_neg hq]
    rcases h with ⟨s, r, d, rfl⟩ | ⟨r, d, rfl⟩
    · exact Or.inl ⟨_, _, _, rfl⟩
    · exact Or.inr ⟨_, _, rfl⟩

theorem foldl_insertEntry_nil {l : List (Entry α)} (hnd : (keysOf l).Nodup) :
    l.foldl insertEntry [] = l := by
  have h := foldl_insertEntry l [] (by simpa using hnd)
  simpa using h

end TomlSort


namespace TomlSort

/-- The recomputed prefix of a multiline array element (lib.rs lines 406-419). -/
def mlPre (o : Option Str) : Str :=
  if !(trimSTN (o.getD [])).isEmpty then '\n' :: '\t' :: (trimSTN (o.getD []) ++ ['\n', '\t'])
  else ['\n', '\t']

theorem formatMulti_cons (c : ProcessedConfig) (v : TValue) (rest : List TValue) :
    formatMulti c (v :: rest) = (format_value c v false).bind fun fv =>
      (formatMulti c rest).map fun rest' =>
        fv.decorated (mlPre v.decor.pre) (trimSTN (v.decor.suf.getD [])) :: rest' := by
  rw [formatMulti, mlPre]
  rcases hfv : format_value c v false with _ | fv <;>
    rcases hrest : formatMulti c rest with _ | rest' <;>
      simp [hfv, hrest]

theorem mlPre_fixed (o : Option Str) : mlPre (some (mlPre o)) = mlPre o := by
  by_cases hpt : (trimSTN (o.getD [])).isEmpty = true
  · have h1 : mlPre o = ['\n', '\t'] := by simp [mlPre, hpt]
    rw [h1]
    decide
  · have hpt' : trimSTN (o.getD []) ≠ [] := by
      intro hc
      rw [hc] at hpt
      exact hpt rfl
    have h1 : mlPre o = '\n' :: '\t' :: (trimSTN (o.getD []) ++ ['\n', '\t']) := by
      simp [mlPre, List.isEmpty_iff, hpt']
    rw [h1]
    have h2 : trimSTN ('\n' :: '\t' :: (trimSTN (o.getD []) ++ ['\n', '\t']))
        = trimSTN (o.getD []) := trimSTN_wrap _ hpt'
    simp [mlPre, h2, List.isEmpty_iff, hpt', h1]

end TomlSort

namespace TomlSort

/-! ## Towards C1: `format_value` output is a fixed point on well-formed input -/

theorem format_value_fixed (c : ProcessedConfig) : ∀ (v : TValue) (last : Bool),
    v.wf = true → ∀ w, format_value c v last = some w →
      format_value c w last = some w ∧ arrKey w = arrKey v := by
  refine format_value.induct c
    (fun v last => v.wf = true → ∀ w, format_value c v last = some w →
      format_value c w last = some w ∧ arrKey w = arrKey v)
    (fun entries last => (decide ((keysOf entries).Nodup) && entriesWfV entries) = true →
      ∀ w, format_inline_table c entries last = some w →
        format_value c w last = some w ∧ arrKey w = none)
    (fun len i l => entriesWfV l = true → ∀ l', formatEntries c len i l = some l' →
      formatEntries c len i l' = some l')
    (fun values trailing last => valuesWf values = true →
      ∀ w, format_array c values trailing last = some w →
        format_value c w last = some w ∧ arrKey w = none)
    (fun len i l => valuesWf l = true → ∀ l', formatInline c len i l = some l' →
      formatInline c len i l' = some l' ∧ l'.map arrKey = l.map arrKey)
    (fun l => valuesWf l = true → ∀ l', formatMulti c l = some l' →
      formatMulti c l' = some l' ∧ l'.map arrKey = l.map arrKey)
    ?_ ?_ ?_ ?_ ?_ ?_ ?_ ?_ ?_ ?_ ?_ ?_
  · -- format_value, arr case
    intro last values trailing tc d h hwf w hweq
    rw [wf_arr] at hwf
    simp only [format_value] at hweq
    have hc := h hwf w hweq
    exact ⟨hc.1, by rw [hc.2]; rfl⟩
  · -- format_value, inlineTab case
    intro last entries d h hwf w hweq
    rw [wf_inlineTab] at hwf
    simp only [format_value] at hweq
    have hc := h hwf w hweq
    exact ⟨hc.1, by rw [hc.2]; rfl⟩
  · -- format_value, scalar case
    intro last v hna hni hwf w hweq
    have hshape : (∃ s r d, v = .strV s r d) ∨ ∃ r d, v = .other r d := by
      cases v with
      | strV s r d => exact Or.inl ⟨s, r, d, rfl⟩
      | other r d => exact Or.inr ⟨r, d, rfl⟩
      | arr values trailing tc d => exact absurd rfl (hna values trailing tc d)
      | inlineTab entries d => exact absurd rfl (hni entries d)
    rw [format_value_scalar c v last hshape] at hweq
    injection hweq with hw
    subst hw
    constructor
    · rw [format_value_scalar c _ last (formatScalar_shape v last hshape), formatScalar_fixed]
    · exact arrKey_formatScalar v last hwf
  · -- format_inline_table case
    intro entries last h hwf w hweq
    have hnd : (keysOf entries).Nodup := by
      rw [Bool.and_eq_true] at hwf
      exact of_decide_eq_true hwf.1
    have hwfe : entriesWfV entries = true := by
      rw [Bool.and_eq_true] at hwf
      exact hwf.2
    rcases Option.isSome_iff_exists.mp (checkInlineDecors_isSome entries) with ⟨ds, hds⟩
    rcases hE : formatEntries c
        (sortBy (entryCmp c.inlineKeys) (scanInlineEntries entries)).length 0
        (sortBy (entryCmp c.inlineKeys) (scanInlineEntries entries)) with _ | E
    · rw [format_inline_table, hds] at hweq
      simp only [Option.bind_eq_bind, Option.some_bind, hE] at hweq
      cases hweq
    · rw [format_inline_table, hds] at hweq
      simp only [Option.bind_eq_bind, Option.some_bind, hE, Option.pure_def,
        Option.some.injEq] at hweq
      have hkd := formatEntries_keyDecor c
        (sortBy (entryCmp c.inlineKeys) (scanInlineEntries entries)).length
        (sortBy (entryCmp c.inlineKeys) (scanInlineEntries entries)) 0 E hE
      have hkeys : keysOf E = sortBy (keyCmp c.inlineKeys) (keysOf entries) := by
        have h1 : keysOf E
            = keysOf (sortBy (entryCmp c.inlineKeys) (scanInlineEntries entries)) := by
          have hmap := congrArg (List.map Prod.fst) hkd
          simpa [keysOf, List.map_map, Function.comp] using hmap
        have h2 : keysOf (sortBy (entryCmp c.inlineKeys) (scanInlineEntries entries))
            = sortBy (keyCmp c.inlineKeys) (keysOf (scanInlineEntries entries)) :=
          sortBy_entry_map_key c.inlineKeys (scanInlineEntries entries)
        rw [h1, h2, keysOf_scanInlineEntries]
      have hndE : (keysOf E).Nodup := by
        rw [hkeys]
        exact ((sortBy_perm (keyCmp c.inlineKeys) (keysOf entries)).nodup_iff).mpr hnd
      have hfoldE : E.foldl insertEntry [] = E := foldl_insertEntry_nil hndE
      rw [hfoldE] at hweq
      subst hweq
      have hdecE : ∀ e ∈ E, e.decor = ⟨some [' '], some [' ']⟩ := by
        intro e he
        have hmem : (e.key, e.decor) ∈ (sortBy (entryCmp c.inlineKeys)
            (scanInlineEntries entries)).map fun e => (e.key, e.decor) := by
          rw [← hkd]
          exact List.mem_map_of_mem _ he
        rcases List.mem_map.mp hmem with ⟨x, hx, hxe⟩
        have hx' : x ∈ scanInlineEntries entries := (sortBy_perm _ _).mem_iff.mp hx
        have hxd : x.decor = ⟨some [' '], some [' ']⟩ := by
          simp only [scanInlineEntries, List.mem_map] at hx'
          rcases hx' with ⟨y, _, rfl⟩
          rfl
        exact (congrArg Prod.snd hxe).symm.trans hxd
      have hscanE : scanInlineEntries E = E := scanInlineEntries_id E hdecE
      have hsortedE : List.Sorted (cmpLe fun x y : Entry TValue => entryCmp c.inlineKeys x y)
          E := by
        rw [sorted_entry_iff_keys, hkeys]
        exact sortBy_sorted (keyCmp_oriented _) (keyCmp_trans _) _
      have hsortE : sortBy (entryCmp c.inlineKeys) E = E := sortBy_sorted_eq hsortedE
      have hlen : E.length
          = (sortBy (entryCmp c.inlineKeys) (scanInlineEntries entries)).length := by
        have hmap := congrArg List.length hkd
        simpa using hmap
      have hwfS : entriesWfV (sortBy (entryCmp c.inlineKeys) (scanInlineEntries entries))
          = true := by
        rw [entriesWfV_forall]
        intro e he
        have he' : e ∈ scanInlineEntries entries := (sortBy_perm _ _).mem_iff.mp he
        simp only [scanInlineEntries, List.mem_map] at he'
        rcases he' with ⟨y, hy, rfl⟩
        exact (entriesWfV_forall entries).mp hwfe y hy
      have hfix := h hwfS E hE
      have hfix2 : formatEntries c E.length 0 E = some E := by
        rw [hlen]
        exact hfix
      constructor
      · rw [format_value]
        rcases Option.isSome_iff_exists.mp (checkInlineDecors_isSome E) with ⟨ds2, hds2⟩
        rw [format_inline_table, hds2]
        simp only [Option.bind_eq_bind, Option.some_bind, hscanE, hsortE, hfix2,
          foldl_insertEntry_nil hndE]
        rfl
      · rfl
  · -- formatEntries, nil
    intro len i _ l' heq
    rw [formatEntries] at heq
    cases heq
    rw [formatEntries]
    rfl
  · -- formatEntries, cons
    intro len i e rest h1 h3 hwf l' heq
    have hwf1 : e.value.wf = true ∧ entriesWfV rest = true := by
      have h := hwf
      simp [entriesWfV, Bool.and_eq_true] at h
      exact h
    rw [formatEntries] at heq
    rcases hfv : format_value c e.value (i + 1 == len) with _ | fv
    · rw [hfv] at heq
      simp at heq
    · rw [hfv] at heq
      rcases hrest : formatEntries c len (i + 1) rest with _ | rest'
      · rw [hrest] at heq
        simp at heq
      · rw [hrest] at heq
        simp only [Option.bind_eq_bind, Option.some_bind, Option.map_some', Option.pure_def,
          Option.some.injEq] at heq
        subst heq
        have hc1 := (h1 hwf1.1 fv hfv).1
        have hc3 := h3 hwf1.2 rest' hrest
        rw [formatEntries]
        simp [hc1, hc3]
  · -- format_array, multiline
    intro values trailing last hsorted hstart hm hwf w hweq
    have hs_eq : hsorted
        = if c.sortStringArrays = true then sortBy arrayElemCmp values else values :=
      dite_eq_ite
    rw [format_array] at hweq
    simp only [hstart, if_true] at hweq
    by_cases hflag : c.sortStringArrays = true
    · rw [if_pos hflag] at hs_eq
      rw [hs_eq] at hm
      simp only [hflag, reduceIte] at hweq
      rcases hMv : formatMulti c (sortBy arrayElemCmp values) with _ | nv
      · rw [hMv] at hweq
        simp at hweq
      · rw [hMv] at hweq
        simp only [Option.bind_eq_bind, Option.some_bind, Option.pure_def,
          Option.some.injEq] at hweq
        subst hweq
        have hwfSV : valuesWf (sortBy arrayElemCmp values) = true := by
          rw [valuesWf_forall] at hwf ⊢
          intro v hv
          exact hwf v ((sortBy_perm _ _).mem_iff.mp hv)
        obtain ⟨hMfix, hmap⟩ := hm hwfSV nv hMv
        constructor
        · have hsorted2 : sortBy arrayElemCmp nv = nv := by
            apply sortBy_sorted_eq
            exact sorted_arrKey_transfer hmap
              (sortBy_sorted arrayElemCmp_oriented arrayElemCmp_trans values)
          rw [format_value, format_array]
          simp only [hflag, reduceIte, hstart, if_true, hsorted2, hMfix,
            Option.bind_eq_bind, Option.some_bind]
          rfl
        · rfl
    · have hflag' : c.sortStringArrays = false := by
        revert hflag
        cases c.sortStringArrays <;> simp
      rw [if_neg hflag] at hs_eq
      rw [hs_eq] at hm
      simp only [hflag', Bool.false_eq_true, reduceIte] at hweq
      rcases hMv : formatMulti c values with _ | nv
      · rw [hMv] at hweq
        simp at hweq
      · rw [hMv] at hweq
        simp only [Option.bind_eq_bind, Option.some_bind, Option.pure_def,
          Option.some.injEq] at hweq
        subst hweq
        obtain ⟨hMfix, hmap⟩ := hm hwf nv hMv
        constructor
        · rw [format_value, format_array]
          simp only [hflag', Bool.false_eq_true, reduceIte, hstart, if_true, hMfix,
            Option.bind_eq_bind, Option.some_bind]
          rfl
        · rfl
  · -- format_array, inline
    intro values trailing last hsorted hstart hm hwf w hweq
    have hs_eq : hsorted
        = if c.sortStringArrays = true then sortBy arrayElemCmp values else values :=
      dite_eq_ite
    rw [format_array] at hweq
    simp only [hstart, Bool.false_eq_true, if_false] at hweq
    have hstart2 : startsWith ([] : Str) ['\n'] = false := by decide
    by_cases hflag : c.sortStringArrays = true
    · rw [if_pos hflag] at hs_eq
      rw [hs_eq] at hm
      simp only [hflag, reduceIte] at hweq
      rcases hInl : formatInline c (sortBy arrayElemCmp values).length 0
          (sortBy arrayElemCmp values) with _ | nv
      · rw [hInl] at hweq
        simp at hweq
      · rw [hInl] at hweq
        simp only [Option.bind_eq_bind, Option.some_bind, Option.pure_def,
          Option.some.injEq] at hweq
        subst hweq
        have hwfSV : valuesWf (sortBy arrayElemCmp values) = true := by
          rw [valuesWf_forall] at hwf ⊢
          intro v hv
          exact hwf v ((sortBy_perm _ _).mem_iff.mp hv)
        obtain ⟨hIfix, hmap⟩ := hm hwfSV nv hInl
        have hlen : nv.length = (sortBy arrayElemCmp values).length := by
          have h := congrArg List.length hmap
          simpa using h
        constructor
        · have hsorted2 : sortBy arrayElemCmp nv = nv := by
            apply sortBy_sorted_eq
            exact sorted_arrKey_transfer hmap
              (sortBy_sorted arrayElemCmp_oriented arrayElemCmp_trans values)
          rw [format_value, format_array]
          simp only [hflag, reduceIte, hstart2, Bool.false_eq_true, if_false, hsorted2,
            hlen, hIfix, Option.bind_eq_bind, Option.some_bind]
          rfl
        · rfl
    · have hflag' : c.sortStringArrays = false := by
        revert hflag
        cases c.sortStringArrays <;> simp
      rw [if_neg hflag] at hs_eq
      rw [hs_eq] at hm
      simp only [hflag', Bool.false_eq_true, reduceIte] at hweq
      rcases hInl : formatInline c values.length 0 values with _ | nv
      · rw [hInl] at hweq
        simp at hweq
      · rw [hInl] at hweq
        simp only [Option.bind_eq_bind, Option.some_bind, Option.pure_def,
          Option.some.injEq] at hweq
        subst hweq
        obtain ⟨hIfix, hmap⟩ := hm hwf nv hInl
        have hlen : nv.length = values.length := by
          have h := congrArg List.length hmap
          simpa using h
        constructor
        · rw [format_value, format_array]
          simp only [hflag', Bool.false_eq_true, reduceIte, hstart2, if_false,
            hlen, hIfix, Option.bind_eq_bind, Option.some_bind]
          rfl
        · rfl
  · -- formatInline, nil
    intro len i _ l' heq
    rw [formatInline] at heq
    cases heq
    constructor
    · rw [formatInline]
      rfl
    · rfl
  · -- formatInline, cons
    intro len i v rest h1 h5 hwf l' heq
    have hwf1 : v.wf = true ∧ valuesWf rest = true := by
      have h := hwf
      simp [valuesWf, Bool.and_eq_true] at h
      exact h
    rw [formatInline] at heq
    rcases hfv : format_value c v (i + 1 == len) with _ | fv
    · rw [hfv] at heq
      simp at heq
    · rw [hfv] at heq
      rcases hrest : formatInline c len (i + 1) rest with _ | rest'
      · rw [hrest] at heq
        simp at heq
      · rw [hrest] at heq
        simp only [Option.bind_eq_bind, Option.some_bind, Option.map_some', Option.pure_def,
          Option.some.injEq] at heq
        subst heq
        obtain ⟨hfvfix, hfvkey⟩ := h1 hwf1.1 fv hfv
        obtain ⟨hrestfix, hrestmap⟩ := h5 hwf1.2 rest' hrest
        constructor
        · rw [formatInline]
          simp [hfvfix, hrestfix]
        · simp [hfvkey, hrestmap]
  · -- formatMulti, nil
    intro _ l' heq
    rw [formatMulti] at heq
    cases heq
    constructor
    · rw [formatMulti]
      rfl
    · rfl
  · -- formatMulti, cons
    intro v rest h1 h6 hwf l' heq
    have hwf1 : v.wf = true ∧ valuesWf rest = true := by
      have h := hwf
      simp [valuesWf, Bool.and_eq_true] at h
      exact h
    rw [formatMulti_cons] at heq
    rcases hfv : format_value c v false with _ | fv
    · rw [hfv] at heq
      simp at heq
    · rw [hfv] at heq
      rcases hrest : formatMulti c rest with _ | rest'
      · rw [hrest] at heq
        simp at heq
      · rw [hrest] at heq
        simp only [Option.some_bind, Option.map_some', Option.some.injEq] at heq
        subst heq
        obtain ⟨hfvfix, hfvkey⟩ := h1 hwf1.1 fv hfv
        obtain ⟨hMfix, hmap⟩ := h6 hwf1.2 rest' hrest
        have hdec : (fv.decorated (mlPre v.decor.pre) (trimSTN (v.decor.suf.getD []))).decor
            = ⟨some (mlPre v.decor.pre), some (trimSTN (v.decor.suf.getD []))⟩ := by
          rw [TValue.decorated, TValue.decor_setDecor]
        have hg := format_value_decorated_strip c fv (mlPre v.decor.pre)
          (trimSTN (v.decor.suf.getD [])) false false
        rw [hfvfix] at hg
        rcases hg2 : format_value c (fv.decorated (mlPre v.decor.pre)
            (trimSTN (v.decor.suf.getD []))) false with _ | g
        · rw [hg2] at hg
          cases hg
        · rw [hg2] at hg
          simp only [Option.map_some', Option.some.injEq] at hg
          have hgfv := setDecor_of_strip_eq hg
            ⟨some (mlPre v.decor.pre), some (trimSTN (v.decor.suf.getD []))⟩
          constructor
          · rw [formatMulti_cons]
            simp only [hg2, hMfix, hdec, Option.getD_some, Option.some_bind,
              Option.map_some', mlPre_fixed, trimSTN_idem, Option.some.injEq]
            rw [show (fv.decorated (mlPre v.decor.pre)
                (trimSTN (v.decor.suf.getD []))) = fv.setDecor
                ⟨some (mlPre v.decor.pre), some (trimSTN (v.decor.suf.getD []))⟩ from rfl,
              show (g.decorated (mlPre v.decor.pre)
                (trimSTN (v.decor.suf.getD []))) = g.setDecor
                ⟨some (mlPre v.decor.pre), some (trimSTN (v.decor.suf.getD []))⟩ from rfl,
              hgfv]
          · simp only [List.map_cons]
            rw [hmap]
            have harr : arrKey (fv.decorated (mlPre v.decor.pre)
                (trimSTN (v.decor.suf.getD []))) = arrKey v := by
              rw [show (fv.decorated (mlPre v.decor.pre)
                  (trimSTN (v.decor.suf.getD []))) = fv.setDecor
                  ⟨some (mlPre v.decor.pre), some (trimSTN (v.decor.suf.getD []))⟩ from rfl,
                arrKey_setDecor, hfvkey]
            rw [harr]

end TomlSort

namespace TomlSort

/-! ## Towards C1: per-entry processing of the table scan is idempotent -/

theorem formatItem_isSome (c : ProcessedConfig) (it : Item) :
    (formatItem c it).isSome = true := by
  cases it with
  | none => simp [formatItem]
  | value v =>
    rcases Option.isSome_iff_exists.mp (format_value_isSome c v false) with ⟨fv, hfv⟩
    simp [formatItem, hfv]
  | table t =>
    rcases Option.isSome_iff_exists.mp (format_table_isSome c t) with ⟨ft, hft⟩
    simp [formatItem, hft]
  | arrayOfTables tag => simp [formatItem]

/-- An entry in fully formatted form: re-processing it is the identity. -/
def fixedE (c : ProcessedConfig) (e : Entry Item) : Prop := procEntry c e = some e

/-- The fixed-point capability of an entry's item under `formatItem`. -/
def HFix (c : ProcessedConfig) (e : Entry Item) : Prop :=
  ∀ it', formatItem c e.value = some it' → formatItem c it' = some it'

theorem trimSufD_pre_set (d : Decor) (p : Option Str) :
    trimSufD { d with pre := p } = { trimSufD d with pre := p } := by
  rcases d with ⟨dp, ds⟩
  cases ds <;> rfl

theorem procEntry_some {c : ProcessedConfig} {e pe : Entry Item}
    (h : procEntry c e = some pe) :
    ∃ it, formatItem c e.value = some it ∧ pe = ⟨e.key, it, trimSufD e.decor⟩ := by
  rw [procEntry] at h
  rcases hit : formatItem c e.value with _ | it
  · rw [hit] at h
    cases h
  · rw [hit] at h
    simp only [Option.map_some', Option.some.injEq] at h
    exact ⟨it, rfl, h.symm⟩

theorem fixedE_setPre {c : ProcessedConfig} {e : Entry Item} (h : fixedE c e) (p : Option Str) :
    fixedE c (setPre e p) := by
  rcases procEntry_some h with ⟨it, hit, hpe⟩
  have hval : it = e.value := congrArg Entry.value hpe.symm
  have hdec : trimSufD e.decor = e.decor := congrArg Entry.decor hpe.symm
  rw [fixedE, procEntry]
  rw [show (setPre e p).value = e.value from rfl, hit]
  simp only [Option.map_some', Option.some.injEq]
  show (⟨(setPre e p).key, it, trimSufD (setPre e p).decor⟩ : Entry Item) = setPre e p
  rw [show (setPre e p).decor = { e.decor with pre := p } from rfl, trimSufD_pre_set, hdec,
    hval]
  rfl

theorem procEntry_fixedE {c : ProcessedConfig} {e pe : Entry Item}
    (hfix : HFix c e) (h : procEntry c e = some pe) : fixedE c pe := by
  rcases procEntry_some h with ⟨it, hit, hpe⟩
  subst hpe
  rw [fixedE, procEntry]
  rw [show (⟨e.key, it, trimSufD e.decor⟩ : Entry Item).value = it from rfl, hfix it hit]
  simp only [Option.map_some', Option.some.injEq]
  show (⟨e.key, it, trimSufD (trimSufD e.decor)⟩ : Entry Item)
      = ⟨e.key, it, trimSufD e.decor⟩
  rw [trimSufD_idem]

theorem trimSufD_pre (d : Decor) : (trimSufD d).pre = d.pre := by
  rcases d with ⟨dp, ds⟩
  cases ds <;> rfl

theorem isBoundary_procEntry {c : ProcessedConfig} {e pe : Entry Item}
    (h : procEntry c e = some pe) : isBoundary pe = isBoundary e := by
  rcases procEntry_some h with ⟨it, _, hpe⟩
  subst hpe
  rw [isBoundary, isBoundary]
  rw [show (⟨e.key, it, trimSufD e.decor⟩ : Entry Item).decor = trimSufD e.decor from rfl,
    trimSufD_pre]

theorem isBoundary_setPre_nil (e : Entry Item) : isBoundary (setPre e (some [])) = false := by
  rw [isBoundary]
  rfl

end TomlSort

namespace TomlSort

/-! ## Towards C1: re-running the pipeline on formatted output -/

theorem setPre_key (e : Entry Item) (p : Option Str) : (setPre e p).key = e.key := rfl

theorem setPre_setPre (e : Entry Item) (q r : Option Str) :
    setPre (setPre e q) r = setPre e r := rfl

theorem setPre_self {e : Entry Item} {p : Option Str} (h : e.decor.pre = p) :
    setPre e p = e := by
  rcases e with ⟨k, v, dp, ds⟩
  have h' : dp = p := h
  subst h'
  rfl

theorem attachPre_cons_some (p : Str) (e : Entry Item) (S' : List (Entry Item)) :
    attachPre (some p) (e :: S') = setPre e (some p) :: S' := rfl

theorem attachPre_none (l : List (Entry Item)) : attachPre none l = l := by
  cases l <;> rfl

theorem sorted_setPre_head {rank : Str → Option Nat} {h : Entry Item} {S' : List (Entry Item)}
    (hs : List.Sorted (cmpLe fun x y : Entry Item => entryCmp rank x y) (h :: S'))
    (p : Option Str) :
    List.Sorted (cmpLe fun x y : Entry Item => entryCmp rank x y) (setPre h p :: S') := by
  rw [sorted_entry_iff_keys] at hs ⊢
  have hk : keysOf (setPre h p :: S') = keysOf (h :: S') := by
    rw [keysOf_cons, keysOf_cons, setPre_key]
  rw [hk]
  exact hs

/-- The trailing sections of a formatted table as the second pass re-reads them:
each opens with a newline-prefixed head, continues with non-boundary entries,
is sorted by the table comparator, and consists of fixed entries. -/
inductive SecTail (c : ProcessedConfig) : List (Entry Item) → Prop where
  | nil : SecTail c []
  | cons (h : Entry Item) (S' T : List (Entry Item)) (p : Str)
      (hp : h.decor.pre = some p) (hnl : startsWith p ['\n'] = true)
      (hS' : ∀ e ∈ S', isBoundary e = false)
      (hfx : ∀ e ∈ h :: S', fixedE c e)
      (hsort : List.Sorted (cmpLe fun x y : Entry Item => entryCmp c.keys x y) (h :: S'))
      (hT : SecTail c T) : SecTail c ((h :: S') ++ T)

theorem pipeGo_walk (c : ProcessedConfig) :
    ∀ (S' T : List (Entry Item)) (sp : Option Str) (cur : List (Entry Item)),
      (∀ e ∈ S', isBoundary e = false ∧ fixedE c e) →
      pipeGo c sp cur (S' ++ T) = pipeGo c sp (cur ++ S') T := by
  intro S'
  induction S' with
  | nil => intro T sp cur _; simp
  | cons e S ih =>
    intro T sp cur h
    have he := h e (by simp)
    rw [List.cons_append, pipeGo, if_neg (by simp [he.1])]
    rw [show procEntry c e = some e from he.2]
    simp only [Option.bind_eq_bind, Option.some_bind]
    rw [ih T sp (cur ++ [e]) fun x hx => h x (by simp [hx])]
    rw [List.append_assoc]
    rfl

theorem pipeGo_secTail (c : ProcessedConfig) :
    ∀ (T : List (Entry Item)), SecTail c T →
      ∀ (sp : Option Str) (cur : List (Entry Item)),
        (∀ e ∈ cur, fixedE c e) →
        sortBy (fun x y : Entry Item => entryCmp c.keys x y) cur = cur →
        pipeGo c sp cur T = some (attachPre sp cur ++ T) := by
  intro T hT
  induction hT with
  | nil =>
    intro sp cur hfx hsort
    rw [pipeGo, sectionOut, hsort]
    simp
  | cons h S' T p hp hnl hS' hfx hsort hT ihT =>
    intro sp cur hcur hcsort
    have hb : isBoundary h = true := by
      rw [isBoundary, hp]
      exact hnl
    rw [List.cons_append, pipeGo, if_pos hb]
    have hfxh : fixedE c (setPre h (some [])) := fixedE_setPre (hfx h (by simp)) _
    rw [show procEntry c (setPre h (some [])) = some (setPre h (some [])) from hfxh]
    simp only [Option.bind_eq_bind, Option.some_bind, hp, Option.getD_some]
    rw [pipeGo_walk c S' T (some p) [setPre h (some [])]
      fun e he => ⟨hS' e he, hfx e (by simp [he])⟩]
    rw [show ([setPre h (some [])] ++ S' : List (Entry Item))
        = setPre h (some []) :: S' from rfl]
    rw [ihT (some p) (setPre h (some []) :: S')
      (by
        intro e he
        rcases List.mem_cons.mp he with rfl | hmem
        · exact hfxh
        · exact hfx e (by simp [hmem]))
      (sortBy_sorted_eq (sorted_setPre_head hsort (some [])))]
    simp only [Option.some_bind, attachPre_cons_some, setPre_setPre, setPre_self hp]
    rw [sectionOut, hcsort]
    simp [List.append_assoc]

/-- A section output followed by later sections is a fixed point of the
pipeline. -/
theorem pipeline_fixed (c : ProcessedConfig) (L : List (Entry Item))
    (hL : L = [] ∨ ∃ f S' T, L = (f :: S') ++ T
        ∧ (∀ e ∈ S', isBoundary e = false)
        ∧ (∀ e ∈ f :: S', fixedE c e)
        ∧ List.Sorted (cmpLe fun x y : Entry Item => entryCmp c.keys x y) (f :: S')
        ∧ SecTail c T) :
    pipeline c L = some L := by
  rcases hL with rfl | ⟨f, S', T, rfl, hS', hfx, hsort, hT⟩
  · rfl
  · rw [List.cons_append]
    have hwalk : ∀ sp cur, pipeGo c sp cur (S' ++ T) = pipeGo c sp (cur ++ S') T :=
      fun sp cur => pipeGo_walk c S' T sp cur fun e he => ⟨hS' e he, hfx e (by simp [he])⟩
    rcases hq : f.decor.pre with _ | q
    · rw [pipeline_cons_plain c _ (Or.inl hq)]
      rw [show procEntry c f = some f from hfx f (by simp)]
      simp only [Option.bind_eq_bind, Option.some_bind]
      rw [hwalk none [f],
        show ([f] ++ S' : List (Entry Item)) = f :: S' from rfl,
        pipeGo_secTail c T hT none (f :: S') hfx (sortBy_sorted_eq hsort),
        attachPre_none]
      simp
    · by_cases hqe : q.isEmpty = true
      · have hq' : f.decor.pre = some [] := by
          rw [hq, List.isEmpty_iff.mp hqe]
        rw [pipeline_cons_plain c _ (Or.inr hq')]
        rw [show procEntry c f = some f from hfx f (by simp)]
        simp only [Option.bind_eq_bind, Option.some_bind]
        rw [hwalk none [f],
          show ([f] ++ S' : List (Entry Item)) = f :: S' from rfl,
          pipeGo_secTail c T hT none (f :: S') hfx (sortBy_sorted_eq hsort),
          attachPre_none]
        simp
      · have hqe' : q.isEmpty = false := by
          revert hqe
          cases q.isEmpty <;> simp
        rw [pipeline_cons_first c _ hq hqe']
        have hfx0 : fixedE c (setPre f (some [])) := fixedE_setPre (hfx f (by simp)) _
        rw [show procEntry c (setPre f (some [])) = some (setPre f (some [])) from hfx0]
        simp only [Option.bind_eq_bind, Option.some_bind]
        rw [hwalk (some q) [setPre f (some [])],
          show ([setPre f (some [])] ++ S' : List (Entry Item))
            = setPre f (some []) :: S' from rfl,
          pipeGo_secTail c T hT (some q) (setPre f (some []) :: S')
            (by
              intro e he
              rcases List.mem_cons.mp he with rfl | hmem
              · exact hfx0
              · exact hfx e (by simp [hmem]))
            (sortBy_sorted_eq (sorted_setPre_head hsort (some []))),
          attachPre_cons_some, setPre_setPre, setPre_self hq]
        simp

end TomlSort

namespace TomlSort

theorem pipeGo_shape (c : ProcessedConfig) :
    ∀ (rest : List (Entry Item)) (sp : Option Str) (cur : List (Entry Item)),
      (∀ e ∈ rest, HFix c e) →
      (∀ e ∈ cur, fixedE c e ∧ isBoundary e = false) →
      cur ≠ [] →
      ∀ L, pipeGo c sp cur rest = some L →
        ∃ cur' T, L = sectionOut c.keys sp cur' ++ T
          ∧ (∀ e ∈ cur', fixedE c e ∧ isBoundary e = false)
          ∧ cur' ≠ []
          ∧ SecTail c T := by
  intro rest
  induction rest with
  | nil =>
    intro sp cur hrest hcur hne L hL
    rw [pipeGo] at hL
    cases hL
    exact ⟨cur, [], by simp, hcur, hne, SecTail.nil⟩
  | cons e rest ih =>
    intro sp cur hrest hcur hne L hL
    rw [pipeGo] at hL
    by_cases hb : isBoundary e = true
    · rw [if_pos hb] at hL
      rcases hpe : procEntry c (setPre e (some [])) with _ | pe
      · rw [hpe] at hL
        cases hL
      · rw [hpe] at hL
        simp only [Option.bind_eq_bind, Option.some_bind] at hL
        rcases hgo : pipeGo c (some (e.decor.pre.getD [])) [pe] rest with _ | outs
        · rw [hgo] at hL
          cases hL
        · rw [hgo] at hL
          simp only [Option.some_bind, Option.pure_def, Option.some.injEq] at hL
          subst hL
          have hfpe : fixedE c pe :=
            procEntry_fixedE (show HFix c (setPre e (some []))
              from fun it' hit => hrest e (by simp) it' hit) hpe
          have hbpe : isBoundary pe = false := by
            rw [isBoundary_procEntry hpe]
            exact isBoundary_setPre_nil e
          obtain ⟨cur', T, hout, hcur', hne', hT⟩ := ih (some (e.decor.pre.getD [])) [pe]
            (fun x hx => hrest x (by simp [hx]))
            (by
              intro x hx
              have hx' : x = pe := by simpa using hx
              subst hx'
              exact ⟨hfpe, hbpe⟩)
            (by simp) outs hgo
          subst hout
          obtain ⟨p0, hp0, hnl0⟩ : ∃ p0, e.decor.pre = some p0
              ∧ startsWith p0 ['\n'] = true := by
            rw [isBoundary] at hb
            rcases hq : e.decor.pre with _ | q
            · rw [hq] at hb
              cases hb
            · rw [hq] at hb
              exact ⟨q, rfl, hb⟩
          refine ⟨cur, sectionOut c.keys (some (e.decor.pre.getD [])) cur' ++ T, rfl,
            hcur, hne, ?_⟩
          rcases hsb : sortBy (fun x y : Entry Item => entryCmp c.keys x y) cur'
            with _ | ⟨h₁, S₁⟩
          · have hperm := sortBy_perm (fun x y : Entry Item => entryCmp c.keys x y) cur'
            rw [hsb] at hperm
            exact absurd hperm.symm.eq_nil hne'
          · have hmemS : ∀ x ∈ h₁ :: S₁, x ∈ cur' := by
              intro x hx
              have hperm := sortBy_perm (fun x y : Entry Item => entryCmp c.keys x y) cur'
              rw [hsb] at hperm
              exact hperm.mem_iff.mp hx
            have hsorted1 : List.Sorted (cmpLe fun x y : Entry Item => entryCmp c.keys x y)
                (h₁ :: S₁) := by
              rw [← hsb]
              exact sortBy_sorted (entryCmp_oriented c.keys) (entryCmp_trans c.keys) cur'
            rw [hp0, Option.getD_some, sectionOut, hsb, attachPre_cons_some]
            refine SecTail.cons (setPre h₁ (some p0)) S₁ T p0 rfl hnl0 ?_ ?_ ?_ hT
            · intro x hx
              exact (hcur' x (hmemS x (by simp [hx]))).2
            · intro x hx
              rcases List.mem_cons.mp hx with rfl | hmem
              · exact fixedE_setPre (hcur' h₁ (hmemS h₁ (by simp))).1 _
              · exact (hcur' x (hmemS x (by simp [hmem]))).1
            · exact sorted_setPre_head hsorted1 (some p0)
    · have hb' : isBoundary e = false := by
        revert hb
        cases isBoundary e <;> simp
      rw [if_neg (by simp [hb'])] at hL
      rcases hpe : procEntry c e with _ | pe
      · rw [hpe] at hL
        cases hL
      · rw [hpe] at hL
        simp only [Option.bind_eq_bind, Option.some_bind] at hL
        have hfpe : fixedE c pe :=
          procEntry_fixedE (fun it' hit => hrest e (by simp) it' hit) hpe
        have hbpe : isBoundary pe = false := by
          rw [isBoundary_procEntry hpe]
          exact hb'
        exact ih sp (cur ++ [pe])
          (fun x hx => hrest x (by simp [hx]))
          (by
            intro x hx
            rcases List.mem_append.mp hx with hx | hx
            · exact hcur x hx
            · have hx' : x = pe := by simpa using hx
              subst hx'
              exact ⟨hfpe, hbpe⟩)
          (by simp) L hL

theorem pipeline_fixed_of (c : ProcessedConfig) (es : List (Entry Item))
    (hfix : ∀ e ∈ es, HFix c e) :
    ∀ L, pipeline c es = some L → pipeline c L = some L := by
  cases es with
  | nil =>
    intro L hL
    cases hL
    rfl
  | cons e rest =>
    intro L hL
    have hrest : ∀ x ∈ rest, HFix c x := fun x hx => hfix x (by simp [hx])
    have hconc : ∀ (sp : Option Str) (cur' T : List (Entry Item)),
        (∀ x ∈ cur', fixedE c x ∧ isBoundary x = false) → cur' ≠ [] → SecTail c T →
        pipeline c (sectionOut c.keys sp cur' ++ T)
          = some (sectionOut c.keys sp cur' ++ T) := by
      intro sp cur' T hcur' hne hT
      rcases hsb : sortBy (fun x y : Entry Item => entryCmp c.keys x y) cur'
        with _ | ⟨h₁, S₁⟩
      · have hperm := sortBy_perm (fun x y : Entry Item => entryCmp c.keys x y) cur'
        rw [hsb] at hperm
        exact absurd hperm.symm.eq_nil hne
      · have hmemS : ∀ x ∈ h₁ :: S₁, x ∈ cur' := by
          intro x hx
          have hperm := sortBy_perm (fun x y : Entry Item => entryCmp c.keys x y) cur'
          rw [hsb] at hperm
          exact hperm.mem_iff.mp hx
        have hsorted1 : List.Sorted (cmpLe fun x y : Entry Item => entryCmp c.keys x y)
            (h₁ :: S₁) := by
          rw [← hsb]
          exact sortBy_sorted (entryCmp_oriented c.keys) (entryCmp_trans c.keys) cur'
        have hS₁nb : ∀ x ∈ S₁, isBoundary x = false :=
          fun x hx => (hcur' x (hmemS x (by simp [hx]))).2
        rcases sp with _ | p
        · rw [sectionOut, hsb, attachPre_none]
          exact pipeline_fixed c _ (Or.inr ⟨h₁, S₁, T, rfl, hS₁nb,
            (fun x hx => (hcur' x (hmemS x hx)).1), hsorted1, hT⟩)
        · rw [sectionOut, hsb, attachPre_cons_some]
          refine pipeline_fixed c _ (Or.inr ⟨setPre h₁ (some p), S₁, T, rfl, hS₁nb, ?_,
            sorted_setPre_head hsorted1 (some p), hT⟩)
          intro x hx
          rcases List.mem_cons.mp hx with rfl | hmem
          · exact fixedE_setPre (hcur' h₁ (hmemS h₁ (by simp))).1 _
          · exact (hcur' x (hmemS x (by simp [hmem]))).1
    rcases hq : e.decor.pre with _ | q
    · rw [pipeline_cons_plain c rest (Or.inl hq)] at hL
      rcases hpe : procEntry c e with _ | pe
      · rw [hpe] at hL
        cases hL
      · rw [hpe] at hL
        simp only [Option.bind_eq_bind, Option.some_bind] at hL
        have hfpe : fixedE c pe :=
          procEntry_fixedE (fun it' hit => hfix e (by simp) it' hit) hpe
        have hbpe : isBoundary pe = false := by
          rw [isBoundary_procEntry hpe, isBoundary, hq]
        obtain ⟨cur', T, hout, hcur', hne', hT⟩ := pipeGo_shape c rest none [pe] hrest
          (by
            intro x hx
            have hx' : x = pe := by simpa using hx
            subst hx'
            exact ⟨hfpe, hbpe⟩)
          (by simp) L hL
        subst hout
        exact hconc none cur' T hcur' hne' hT
    · by_cases hqe : q.isEmpty = true
      · have hq' : e.decor.pre = some [] := by
          rw [hq, List.isEmpty_iff.mp hqe]
        rw [pipeline_cons_plain c rest (Or.inr hq')] at hL
        rcases hpe : procEntry c e with _ | pe
        · rw [hpe] at hL
          cases hL
        · rw [hpe] at hL
          simp only [Option.bind_eq_bind, Option.some_bind] at hL
          have hfpe : fixedE c pe :=
            procEntry_fixedE (fun it' hit => hfix e (by simp) it' hit) hpe
          have hbpe : isBoundary pe = false := by
            rw [isBoundary_procEntry hpe, isBoundary, hq']
            rfl
          obtain ⟨cur', T, hout, hcur', hne', hT⟩ := pipeGo_shape c rest none [pe] hrest
            (by
              intro x hx
              have hx' : x = pe := by simpa using hx
              subst hx'
              exact ⟨hfpe, hbpe⟩)
            (by simp) L hL
          subst hout
          exact hconc none cur' T hcur' hne' hT
      · have hqe' : q.isEmpty = false := by
          revert hqe
          cases q.isEmpty <;> simp
        rw [pipeline_cons_first c rest hq hqe'] at hL
        rcases hpe : procEntry c (setPre e (some [])) with _ | pe
        · rw [hpe] at hL
          cases hL
        · rw [hpe] at hL
          simp only [Option.bind_eq_bind, Option.some_bind] at hL
          have hfpe : fixedE c pe :=
            procEntry_fixedE (show HFix c (setPre e (some []))
              from fun it' hit => hfix e (by simp) it' hit) hpe
          have hbpe : isBoundary pe = false := by
            rw [isBoundary_procEntry hpe]
            exact isBoundary_setPre_nil e
          obtain ⟨cur', T, hout, hcur', hne', hT⟩ := pipeGo_shape c rest (some q) [pe] hrest
            (by
              intro x hx
              have hx' : x = pe := by simpa using hx
              subst hx'
              exact ⟨hfpe, hbpe⟩)
            (by simp) L hL
          subst hout
          exact hconc (some q) cur' T hcur' hne' hT

end TomlSort

namespace TomlSort

/-! ## Towards C1: assembling table-level idempotence -/

theorem flatMap_perm_of_perm {α β : Type} (f g : α → List β) :
    ∀ (l : List α), (∀ x ∈ l, List.Perm (f x) (g x)) →
      List.Perm (l.flatMap f) (l.flatMap g) := by
  intro l
  induction l with
  | nil => intro _; rfl
  | cons a l ih =>
    intro h
    rw [List.flatMap_cons, List.flatMap_cons]
    exact List.Perm.append (h a (by simp)) (ih fun x hx => h x (by simp [hx]))

theorem sectionsGo_keys : ∀ (l cur : List (Entry Item)),
    (sectionsGo cur l).flatMap (fun sec => keysOf sec) = keysOf (cur ++ l) := by
  intro l
  induction l with
  | nil => intro cur; simp [sectionsGo]
  | cons x rest ih =>
    intro cur
    rw [sectionsGo]
    by_cases hb : isBoundary x = true
    · rw [if_pos hb, List.flatMap_cons, ih [x]]
      simp [keysOf_append]
    · rw [if_neg hb, ih (cur ++ [x])]
      rw [List.append_assoc]
      rfl

theorem keysOf_pipeline_perm (c : ProcessedConfig) (es L : List (Entry Item))
    (h : pipeline c es = some L) : List.Perm (keysOf L) (keysOf es) := by
  rw [pipeline_keys c es L h]
  have h1 : List.Perm
      ((sections es).flatMap fun sec => sortBy (keyCmp c.keys) (keysOf sec))
      ((sections es).flatMap fun sec => keysOf sec) :=
    flatMap_perm_of_perm _ _ (sections es) fun sec _ => sortBy_perm (keyCmp c.keys) (keysOf sec)
  refine h1.trans ?_
  cases es with
  | nil => rfl
  | cons e rest =>
    rw [sections, sectionsGo_keys rest [e]]
    rw [show ([e] ++ rest : List (Entry Item)) = e :: rest from rfl]

theorem sizeOf_value_le_itemsSize {e : Entry Item} :
    ∀ {es : List (Entry Item)}, e ∈ es → sizeOf e.value ≤ itemsSize es := by
  intro es
  induction es with
  | nil => intro h; cases h
  | cons x rest ih =>
    intro h
    rw [itemsSize_cons]
    rcases List.mem_cons.mp h with rfl | hmem
    · omega
    · have h2 := ih hmem
      omega

theorem sizeOf_table_lt {t : TTable} {e : Entry Item} {st : TTable}
    (he : e ∈ t.entries) (hv : e.value = .table st) : sizeOf st < sizeOf t := by
  have h1 : sizeOf e.value ≤ itemsSize t.entries := sizeOf_value_le_itemsSize he
  have h2 : itemsSize t.entries < sizeOf t.entries := itemsSize_lt_sizeOf t.entries
  have h3 : sizeOf st < sizeOf e.value := by
    rw [hv]
    simp only [Item.table.sizeOf_spec]
    omega
  cases t with
  | mk es d i =>
    simp only [TTable.entries] at h1 h2
    simp only [TTable.mk.sizeOf_spec]
    omega

theorem format_table_fixed_n (c : ProcessedConfig) :
    ∀ (n : Nat) (t : TTable), sizeOf t ≤ n → t.wf = true →
      ∀ t', format_table c t = some t' → format_table c t' = some t' := by
  intro n
  induction n with
  | zero =>
    intro t hsz
    exfalso
    cases t with
    | mk es d i =>
      simp only [TTable.mk.sizeOf_spec] at hsz
      omega
  | succ n ih =>
    intro t hsz hwf t' ht'
    obtain ⟨hnd, hwfE⟩ := (TTable.wf_iff t).mp hwf
    rw [format_table_eq_pipeline c t hnd] at ht'
    rcases hp : pipeline c t.entries with _ | L
    · rw [hp] at ht'
      cases ht'
    · rw [hp] at ht'
      simp only [Option.map_some', Option.some.injEq] at ht'
      subst ht'
      have hfix : ∀ e ∈ t.entries, HFix c e := by
        intro e he it' hit
        rcases hv : e.value with _ | v | st | tag
        · rw [hv, formatItem] at hit
          cases hit
          rw [formatItem]
          rfl
        · rw [hv, formatItem] at hit
          rcases hfv : format_value c v false with _ | fv
          · rw [hfv] at hit
            simp at hit
          · rw [hfv] at hit
            simp only [Option.bind_eq_bind, Option.some_bind, Option.pure_def,
              Option.some.injEq] at hit
            subst hit
            have hvwf : v.wf = true := by
              have h := hwfE e he
              rw [hv, wf_item_value] at h
              exact h
            have hfv2 := (format_value_fixed c v false hvwf fv hfv).1
            rw [formatItem]
            simp [hfv2]
        · rw [hv, formatItem] at hit
          rcases hft : format_table c st with _ | ft
          · rw [hft] at hit
            simp at hit
          · rw [hft] at hit
            simp only [Option.bind_eq_bind, Option.some_bind, Option.pure_def,
              Option.some.injEq] at hit
            subst hit
            have hstwf : st.wf = true := by
              have h := hwfE e he
              rw [hv, wf_item_table] at h
              exact h
            have hstsz : sizeOf st ≤ n := by
              have h := sizeOf_table_lt he hv
              omega
            have hft2 := ih st hstsz hstwf ft hft
            rw [formatItem]
            simp [hft2]
        · rw [hv, formatItem] at hit
          cases hit
          rw [formatItem]
          rfl
      have hLfix := pipeline_fixed_of c t.entries hfix L hp
      have hperm := keysOf_pipeline_perm c t.entries L hp
      have hndL : (keysOf L).Nodup := hperm.nodup_iff.mpr hnd
      rw [format_table_eq_pipeline c
        (TTable.mk L ⟨some (t.decor.pre.getD []), some (t.decor.suf.getD [])⟩ true) hndL]
      rw [show (TTable.mk L ⟨some (t.decor.pre.getD []), some (t.decor.suf.getD [])⟩
          true).entries = L from rfl, hLfix]
      rfl

/-! ## Claim C1: idempotence -/

/-- C1: formatting is idempotent: on a well-formed tree (the conformant-parser
invariant `TTable.wf`: unique keys throughout, a convertible single-quoted
string's content agreeing with its quoted text, non-string scalar text never
single-quoted), applying `format_table` to the output of a previous
`format_table` run with the same configuration returns that output unchanged. -/
theorem claim_c1_idempotence (c : ProcessedConfig) (t : TTable) (hwf : TTable.wf t = true)
    (t₁ : TTable) (h : format_table c t = some t₁) : format_table c t₁ = some t₁ :=
  format_table_fixed_n c (sizeOf t) t le_rfl hwf t₁ h

/-- The concrete input table for the C1 witness: keys `b, a`, one section. -/
def tC1 : TTable :=
  .mk [⟨"b".data, .none, ⟨some [], some []⟩⟩,
       ⟨"a".data, .none, ⟨some [], some []⟩⟩] ⟨none, none⟩ false

/-- Its formatted form: sorted keys `a, b`. -/
def tC1out : TTable :=
  .mk [⟨"a".data, .none, ⟨some [], some []⟩⟩,
       ⟨"b".data, .none, ⟨some [], some []⟩⟩] ⟨some [], some []⟩ true

/-- Witness for C1: the formatted table is untouched by a second pass. -/
theorem claim_c1_idempotence_witness : format_table cfgPlain tC1out = some tC1out :=
  claim_c1_idempotence cfgPlain tC1
    (by simp +decide [TTable.wf, entriesWfI, Item.wf, TTable.entries, keysOf, tC1])
    tC1out
    (by simp +decide [format_table, scanEntries, formatItem, keyDecorLookup, flushSection,
      emitSorted, insertEntry, sortBy, List.insertionSort, List.orderedInsert, trimEndNewlines,
      Decor.default, TTable.entries, TTable.decor, List.find?, tC1, tC1out])

end TomlSort
